import Mathlib

/-!
# Ledger Replay & Reconciliation Engine — verification development

A shallow embedding, in Lean 4, of the capital-replay and forex-reconciliation
core of the trade-view backend:

* `backend/app/services/commission_calculator.py` — the fee calculator;
* `backend/app/routers/user.py`, `recalculate_strategy_capital_history` — the
  per-strategy stock ledger replay engine;
* `backend/app/routers/positions.py`, `take_profit` / `stop_loss` — the
  partial-close splitter;
* `backend/app/routers/forex.py`, `_contract_size`, `_calc_profit`,
  `_calc_margin`, `_recalculate_account` — the forex account reconciliation.

Modelling conventions:

* Python `float` money arithmetic is idealised as exact rational arithmetic
  (`ℚ`); Python `round(x, n)` is modelled as rounding `x·10^n` to the nearest
  integer.
* A SQL `DateTime` is a pair `(day, tod)` ordered lexicographically; `func.date`
  is the `day` projection and a SQL `Date` is a plain integer day number.
* The database is explicit state: the trade table, the snapshot table and the
  strategy/account rows are passed in and the new rows are returned.  Nullable
  columns are `Option`s.  Row mutation plus `commit` is modelled by returning
  the updated row list.  `order_by` is modelled as a stable insertion sort
  (Python's own sort is stable, and SQL ordering on a unique-constrained key is
  deterministic).
* The live-quote provider is a function `String → Option ℚ`; `none` models a
  fetch failure (the code catches every exception from the fetch).
-/

namespace TradeView

/-- Money amounts: exact rationals standing in for the source's floats. -/
abbrev Money : Type := ℚ

/-- A calendar date, as a day number. -/
abbrev Day : Type := ℤ

/-- A datetime: a calendar day plus a time-of-day, ordered lexicographically.
`func.date(x)` in the source corresponds to `x.day`. -/
structure DT where
  day : ℤ
  tod : ℤ
deriving DecidableEq

/-- Lexicographic `≤` on datetimes. -/
def DT.le (a b : DT) : Prop := a.day < b.day ∨ (a.day = b.day ∧ a.tod ≤ b.tod)

/-- Lexicographic `<` on datetimes. -/
def DT.lt (a b : DT) : Prop := a.day < b.day ∨ (a.day = b.day ∧ a.tod < b.tod)

instance : DecidableRel DT.le := fun a b => by unfold DT.le; infer_instance

instance : DecidableRel DT.lt := fun a b => by unfold DT.lt; infer_instance

/-- ASCII uppercase of one character (ticker symbols and trade sides are
ASCII, so this is Python's `str.upper()` on them). -/
def pyUpperChar (c : Char) : Char :=
  if 97 ≤ c.toNat ∧ c.toNat ≤ 122 then Char.ofNat (c.toNat - 32) else c

/-- Python `s.upper()` on ASCII strings. -/
def pyUpper (s : String) : String := ⟨s.data.map pyUpperChar⟩

/-- Python `s.startswith(c)` for a single-character head. -/
def pyStartsWith (s : String) (c : Char) : Bool :=
  match s.data with
  | [] => false
  | a :: _ => a = c

/-- `round(x, 2)` of the source, on rationals. -/
def round2 (x : ℚ) : ℚ := (round (x * 100) : ℚ) / 100

/-- `round(x, 6)` of the source, on rationals. -/
def round6 (x : ℚ) : ℚ := (round (x * 1000000) : ℚ) / 1000000

/-! ## Fee calculator (`services/commission_calculator.py`) -/

/-- `CommissionCalculator.__init__` state. -/
structure CommissionCalculator where
  commission_rate : ℚ
  min_commission : ℚ
deriving DecidableEq

/-- `CommissionCalculator.calculate_buy_commission`. -/
def calculate_buy_commission (c : CommissionCalculator) (price : ℚ) (shares : ℤ) : ℚ :=
  let trade_amount := price * (shares : ℚ)
  let commission := trade_amount * c.commission_rate
  let commission := if commission < c.min_commission then c.min_commission else commission
  round2 commission

/-- `CommissionCalculator.calculate_sell_commission`. -/
def calculate_sell_commission (c : CommissionCalculator) (price : ℚ) (shares : ℤ)
    (stock_code : String) : ℚ :=
  let trade_amount := price * (shares : ℚ)
  let commission := trade_amount * c.commission_rate
  let commission := if commission < c.min_commission then c.min_commission else commission
  let stamp_tax := trade_amount * (1 / 1000)
  let transfer_fee := if pyStartsWith stock_code '6' then trade_amount * (2 / 10000) else 0
  round2 (commission + stamp_tax + transfer_fee)

/-- `default_calculator = CommissionCalculator(commission_rate=0.0003, min_commission=5.0)`. -/
def default_calculator : CommissionCalculator := ⟨3 / 10000, 5⟩

/-! ## Data model (`database.py`) -/

/-- A stock `Trade` row (`database.py`, class `Trade`).  Nullable columns are
`Option`s; `open_time`, `shares`, `buy_price`, `stock_code` are `NOT NULL`.
Columns irrelevant to replay and partial close (alert flags, holding days,
current price, client request id, …) are omitted. -/
structure Trade where
  id : ℤ
  stock_code : String
  stock_name : Option String
  open_time : DT
  close_time : Option DT
  updated_at : Option DT
  shares : ℤ
  commission : Option Money
  buy_commission : Option Money
  sell_commission : Option Money
  buy_price : Money
  sell_price : Option Money
  stop_loss_price : Option Money
  take_profit_price : Option Money
  profit_loss : Option Money
  theoretical_risk_reward_ratio : Option Money
  actual_risk_reward_ratio : Option Money
  order_result : Option String
  notes : Option String
  status : String
  is_deleted : Bool
deriving DecidableEq

/-- A `StrategyCapitalHistory` row: the per-strategy, per-date capital snapshot.
`capital` is the stored total equity; `available_funds` and `position_value`
are nullable.  (`user_id`/`strategy_id` are fixed by the replay scope and
omitted; dates are unique per scope by the table's unique constraint.) -/
structure Snapshot where
  date : Day
  capital : Money
  available_funds : Option Money
  position_value : Option Money
deriving DecidableEq

/-- The anchor-bearing part of a `Strategy` row. -/
structure Strategy where
  initial_capital : Option Money
  initial_date : Option Day
deriving DecidableEq

/-- The part of a `User` row read by the replay engine. -/
structure UserRec where
  initial_capital : Option Money
  initial_capital_date : Option Day
deriving DecidableEq

/-! ## Stock ledger replay engine
(`routers/user.py`, `recalculate_strategy_capital_history`) -/

/-- The earlier of two optional datetimes, ignoring `none` (as SQL `min`
aggregates ignore NULL and the source's loop skips `None`). -/
def optMinDT (a b : Option DT) : Option DT :=
  match a, b with
  | none, b => b
  | some x, none => some x
  | some x, some y => if DT.lt y x then some y else some x

/-- Minimum `open_time`/`close_time` over a trade list, ignoring NULLs:
`select(func.min(Trade.open_time), func.min(Trade.close_time))`. -/
def minTradeDT (trades : List Trade) : Option DT :=
  trades.foldl (fun acc t => optMinDT (optMinDT acc (some t.open_time)) t.close_time) none

/-- Anchor resolution, lines 849–876 of `user.py`: when the strategy has no
anchor date, derive it as the minimum of the user-level initial-capital date
and the earliest (non-deleted) trade datetime, defaulting to today; seed the
anchor capital from the user's initial capital, defaulting to `100000.0`. -/
def resolveAnchor (strategy : Strategy) (user : UserRec) (trades : List Trade)
    (today : Day) : Strategy :=
  match strategy.initial_date with
  | some _ => strategy
  | none =>
    let earliest_trade_dt := minTradeDT (trades.filter (fun t => !t.is_deleted))
    let candidates : List Day :=
      (match user.initial_capital_date with | some d => [d] | none => []) ++
      (match earliest_trade_dt with | some dt => [dt.day] | none => [])
    let initial_date :=
      match candidates with
      | [] => today
      | d :: ds => ds.foldl min d
    { strategy with
      initial_date := some initial_date,
      initial_capital :=
        match strategy.initial_capital with
        | some c => some c
        | none => some (user.initial_capital.getD 100000) }

/-- Replay event kind. -/
inductive EvKind where
  | opn
  | cls
deriving DecidableEq

/-- A replay event (`trade_events` entries: `{'date', 'time', 'type', 'trade'}`). -/
structure Event where
  date : Day
  time : DT
  kind : EvKind
  trade : Trade
deriving DecidableEq

/-- The scope query of lines 940–955: non-deleted trades whose open date, or
(non-null) close date, falls on/after the start date. -/
def tradeInScope (start : Day) (t : Trade) : Bool :=
  !t.is_deleted &&
    (start ≤ t.open_time.day ||
      (match t.close_time with | some c => start ≤ c.day | none => false))

/-- The close datetime of a trade: `close_time or updated_at or open_time`,
clamped to not precede the open time (lines 964–966). -/
def closeDT (t : Trade) : DT :=
  let cd := (t.close_time.orElse fun _ => t.updated_at).getD t.open_time
  if DT.lt cd t.open_time then t.open_time else cd

/-- Events contributed by one trade (lines 959–970): an open event when the
open date is in range, and a close event exactly when `sell_price` is non-null
and the (clamped) close date is in range. -/
def eventsOfTrade (start : Day) (t : Trade) : List Event :=
  (if start ≤ t.open_time.day then [⟨t.open_time.day, t.open_time, .opn, t⟩] else []) ++
    (match t.sell_price with
     | none => []
     | some _ =>
       let cd := closeDT t
       if start ≤ cd.day then [⟨cd.day, cd, .cls, t⟩] else [])

/-- Trade order of the scope query (`order_by(Trade.open_time.asc())`). -/
def tradeLe (a b : Trade) : Prop := DT.le a.open_time b.open_time

instance : DecidableRel tradeLe := fun a b => by unfold tradeLe; infer_instance

/-- Event order: `key=lambda x: (x['date'], x['time'])`. -/
def eventLe (a b : Event) : Prop :=
  a.date < b.date ∨ (a.date = b.date ∧ DT.le a.time b.time)

instance : DecidableRel eventLe := fun a b => by unfold eventLe; infer_instance

/-- The sorted event stream of the replay (lines 940–971): scope-filtered
trades ordered by open time, two events per trade as applicable, stably sorted
by `(date, time)`. -/
def buildEvents (start : Day) (trades : List Trade) : List Event :=
  (((trades.filter (tradeInScope start)).insertionSort tradeLe).flatMap
      (eventsOfTrade start)).insertionSort eventLe

/-- One computed snapshot value: `(available_funds, position_value, total_assets)`. -/
structure RecVal where
  af : Money
  pv : Money
  total : Money
deriving DecidableEq

/-- The in-progress replay state: available funds, the open-position dict
(`positions: {trade_id: trade}`, insertion-ordered), and the computed
`capital_records: {date: (available_funds, position_value, total_assets)}`. -/
structure RState where
  af : Money
  positions : List (ℤ × Trade)
  records : List (Day × RecVal)
deriving DecidableEq

/-- Python dict assignment `positions[trade.id] = trade`: replace in place if
the key is present, else append. -/
def posInsert (ps : List (ℤ × Trade)) (i : ℤ) (t : Trade) : List (ℤ × Trade) :=
  if ps.any (fun p => p.1 = i) then ps.map (fun p => if p.1 = i then (i, t) else p)
  else ps ++ [(i, t)]

/-- `positions.pop(trade.id, None)`. -/
def posErase (ps : List (ℤ × Trade)) (i : ℤ) : List (ℤ × Trade) :=
  ps.filter (fun p => p.1 ≠ i)

/-- `sum((t.buy_price or 0) * (t.shares or 0) for t in positions.values())`. -/
def posValue (ps : List (ℤ × Trade)) : Money :=
  (ps.map (fun p => p.2.buy_price * (p.2.shares : ℚ))).sum

/-- Dict assignment `capital_records[date] = v`. -/
def recInsert (rs : List (Day × RecVal)) (d : Day) (v : RecVal) : List (Day × RecVal) :=
  if rs.any (fun r => r.1 = d) then rs.map (fun r => if r.1 = d then (d, v) else r)
  else rs ++ [(d, v)]

/-- `capital_records.get(date)`. -/
def recLookup (rs : List (Day × RecVal)) (d : Day) : Option RecVal :=
  (rs.find? (fun r => r.1 = d)).map (fun r => r.2)

/-- `buy_commission if buy_commission is not None else (commission or 0)`. -/
def buyCommissionOf (t : Trade) : Money :=
  t.buy_commission.getD (t.commission.getD 0)

/-- One iteration of the replay loop (lines 1009–1037). -/
def replayStep (st : RState) (e : Event) : RState :=
  let t := e.trade
  let st1 : RState :=
    match e.kind with
    | .opn =>
      let cost := t.buy_price * (t.shares : ℚ) + buyCommissionOf t
      { st with af := st.af - cost, positions := posInsert st.positions t.id t }
    | .cls =>
      match t.sell_price with
      | none => st
      | some sp =>
        let af' :=
          match t.profit_loss with
          | some pl => st.af + (t.buy_price * (t.shares : ℚ) + buyCommissionOf t) + pl
          | none =>
            let sell_commission :=
              t.sell_commission.getD
                (calculate_sell_commission default_calculator sp t.shares t.stock_code)
            st.af + (sp * (t.shares : ℚ) - sell_commission)
        { st with af := af', positions := posErase st.positions t.id }
  let pv := posValue st1.positions
  { st1 with records := recInsert st1.records e.date ⟨st1.af, pv, st1.af + pv⟩ }

/-- The in-place update of one persisted snapshot from the computed map
(lines 1051–1056). -/
def applySnap (rs : List (Day × RecVal)) (r : Snapshot) : Snapshot :=
  match recLookup rs r.date with
  | some v =>
      { r with
        capital := v.total
        available_funds := some v.af
        position_value := some v.pv }
  | none => r

/-- A freshly inserted snapshot row from one computed record (lines
1057–1067). -/
def mkSnap (p : Day × RecVal) : Snapshot := ⟨p.1, p.2.total, some p.2.af, some p.2.pv⟩

/-- Reconciliation write (lines 1039–1072): diff computed records against
persisted snapshots with `date ≥ start`; update matching dates in place, add
missing dates, delete persisted dates absent from the computed map; snapshots
before `start` are untouched. -/
def reconcileRange (snaps : List Snapshot) (start : Day) (rs : List (Day × RecVal)) :
    List Snapshot :=
  let kept := snaps.filter (fun r => r.date < start)
  let inRange := snaps.filter (fun r => start ≤ r.date)
  let updated :=
    (inRange.filter (fun r => (recLookup rs r.date).isSome)).map (applySnap rs)
  let added :=
    (rs.filter (fun p => !(inRange.any (fun r => r.date = p.1)))).map mkSnap
  kept ++ updated ++ added

/-- The replay tail shared by every entry into the engine: build the event
stream from `start`, fold it from the carried-in state, and reconcile the
snapshot range.  `snaps1` already contains the (possibly freshly seeded)
anchor record `initial_record`. -/
def replayFrom (initial_capital : Money) (anchor_date start : Day)
    (af0 : Money) (pos0 : List (ℤ × Trade)) (trades : List Trade)
    (snaps1 : List Snapshot) (initial_record : Snapshot) : List Snapshot :=
  let trade_events := buildEvents start trades
  let records0 : List (Day × RecVal) :=
    if start = anchor_date then [(start, ⟨initial_capital, 0, initial_capital⟩)] else []
  if trade_events.isEmpty then
    if start = anchor_date then
      [{ initial_record with
          capital := initial_capital
          available_funds := some initial_capital
          position_value := some 0 }]
    else
      snaps1.filter (fun r => r.date < start)
  else
    let final := trade_events.foldl replayStep ⟨af0, pos0, records0⟩
    reconcileRange snaps1 start final.records

/-- The resume carry-in of lines 905–938: the most recent snapshot strictly
before `start` (falling back to the anchor record), its available funds, and
the trades open at that boundary. -/
def resumeInit (trades : List Trade) (snaps1 : List Snapshot)
    (initial_record : Snapshot) (start : Day) : Money × List (ℤ × Trade) :=
  let prev_record :=
    ((snaps1.filter (fun r => r.date < start)).foldl
      (fun acc r =>
        match acc with
        | none => some r
        | some b => if b.date < r.date then some r else acc) none).getD initial_record
  let prev_date := prev_record.date
  let available_funds := prev_record.available_funds.getD prev_record.capital
  let open_positions := trades.filter (fun t =>
    !t.is_deleted && t.open_time.day ≤ prev_date &&
      (match t.close_time with | some c => prev_date < c.day | none => true))
  (available_funds, open_positions.map (fun t => (t.id, t)))

/-- Seeding of the anchor snapshot (lines 882–900): if no snapshot exists at
the anchor date, insert one holding the anchor capital. -/
def seedSnaps (snaps : List Snapshot) (anchor_date : Day) (initial_capital : Money) :
    List Snapshot :=
  match snaps.find? (fun r => r.date = anchor_date) with
  | some _ => snaps
  | none => snaps ++ [⟨anchor_date, initial_capital, some initial_capital, some 0⟩]

/-- `recalculate_strategy_capital_history(db, user_id, strategy_id, start_date)`
(`user.py` lines 841–1072), as a function from the strategy row, the user row,
the strategy's trade table, its snapshot table and today's date to the updated
strategy row and snapshot table.  Note line 880: the `start_date` argument is
overwritten with the anchor date before first use. -/
def recalculate_strategy_capital_history (strategy : Strategy) (user : UserRec)
    (trades : List Trade) (snaps : List Snapshot) (today : Day)
    (start_date : Day) : Strategy × List Snapshot :=
  let strategy := resolveAnchor strategy user trades today
  let anchor_date := strategy.initial_date.getD today
  let initial_capital := strategy.initial_capital.getD 100000
  let start_date := anchor_date
  let seeded : Snapshot :=
    ⟨anchor_date, initial_capital, some initial_capital, some 0⟩
  let snaps1 := seedSnaps snaps anchor_date initial_capital
  let initial_record := (snaps1.find? (fun r => r.date = anchor_date)).getD seeded
  let init : Money × List (ℤ × Trade) :=
    if anchor_date < start_date then
      resumeInit trades snaps1 initial_record start_date
    else
      (initial_capital, [])
  (strategy,
    replayFrom initial_capital anchor_date start_date init.1 init.2 trades snaps1
      initial_record)

/-- The same engine with the dead resume branch and the overwritten
`start_date` argument removed: an unconditional full rebuild from the anchor. -/
def recalcFullRebuild (strategy : Strategy) (user : UserRec)
    (trades : List Trade) (snaps : List Snapshot) (today : Day) :
    Strategy × List Snapshot :=
  let strategy := resolveAnchor strategy user trades today
  let anchor_date := strategy.initial_date.getD today
  let initial_capital := strategy.initial_capital.getD 100000
  let seeded : Snapshot :=
    ⟨anchor_date, initial_capital, some initial_capital, some 0⟩
  let snaps1 := seedSnaps snaps anchor_date initial_capital
  let initial_record := (snaps1.find? (fun r => r.date = anchor_date)).getD seeded
  (strategy,
    replayFrom initial_capital anchor_date anchor_date initial_capital [] trades snaps1
      initial_record)

/-! ## Partial-close splitter (`routers/positions.py`, `take_profit` / `stop_loss`) -/

/-- `_validate_partial_close_shares`: the requested quantity defaults to the
full remaining quantity and must be positive, at most the remaining quantity,
and a multiple of 100. -/
def validate_partial_close_shares (position_shares : ℤ) (requested_shares : Option ℤ) :
    Except String ℤ :=
  let shares_to_close := requested_shares.getD position_shares
  if shares_to_close ≤ 0 then .error "止盈/止损股数必须大于0"
  else if position_shares < shares_to_close then .error "止盈/止损股数不能大于持仓股数"
  else if shares_to_close % 100 ≠ 0 then .error "A股卖出股数必须是100的整数倍"
  else .ok shares_to_close

/-- Outcome of a close action: a full in-place close, or a split into a new
closed record plus the shrunk still-open original. -/
inductive CloseResult where
  | full (position' : Trade)
  | split (closed_trade : Trade) (position' : Trade)
deriving DecidableEq

/-- The buy-commission apportioned to the closed slice (lines 255–256 and
412–413): all of it on a full close, else `round(original * k/q, 6)`. -/
def closedBuyCommission (original_buy_commission : ℚ) (shares_to_close position_shares : ℤ) : ℚ :=
  if shares_to_close = position_shares then original_buy_commission
  else round6 (original_buy_commission * ((shares_to_close : ℚ) / (position_shares : ℚ)))

/-- Clamp a close time to not precede the position's open time (lines
240–241 and 397–398). -/
def clampCloseTime (position : Trade) (close_time0 : DT) : DT :=
  if DT.lt close_time0 position.open_time then position.open_time else close_time0

/-- The take-profit actual risk/reward ratio (lines 264–269):
`(sell_price − buy_price) / (buy_price − stop_loss_price)`, only when all
three prices are truthy and the risk is positive. -/
def tpActualRrr (position : Trade) (sell_price : ℚ) : Option ℚ :=
  match position.stop_loss_price with
  | some sl =>
    if position.buy_price ≠ 0 ∧ sl ≠ 0 ∧ sell_price ≠ 0 then
      let risk := position.buy_price - sl
      if 0 < risk then some (round2 ((sell_price - position.buy_price) / risk)) else none
    else none
  | none => none

/-- The stop-loss actual risk/reward ratio (lines 421–426):
`(take_profit_price − buy_price) / (buy_price − sell_price)`, only when all
three prices are truthy and the actual risk is positive. -/
def slActualRrr (position : Trade) (sell_price : ℚ) : Option ℚ :=
  match position.take_profit_price with
  | some tp =>
    if position.buy_price ≠ 0 ∧ tp ≠ 0 ∧ sell_price ≠ 0 then
      let actual_risk := position.buy_price - sell_price
      if 0 < actual_risk then some (round2 ((tp - position.buy_price) / actual_risk))
      else none
    else none
  | none => none

/-- The new closed record created by a partial close (lines 306–330 and
457–481): it carries the closed slice's quantity, the apportioned entry fee,
the full exit fee and its own realized P&L; `order_label` is "止盈" or "止损"
and `arr` the action-specific actual risk/reward ratio. -/
def splitCloseSlice (position : Trade) (sell_price : ℚ) (shares_to_close : ℤ)
    (close_time : DT) (new_id : ℤ) (order_label : String) (arr : Option ℚ) : Trade :=
  let sell_commission :=
    calculate_sell_commission default_calculator sell_price shares_to_close
      position.stock_code
  let original_buy_commission := position.buy_commission.getD 0
  let closed_buy_commission :=
    closedBuyCommission original_buy_commission shares_to_close position.shares
  let total_commission := closed_buy_commission + sell_commission
  let profit_loss :=
    (sell_price - position.buy_price) * (shares_to_close : ℚ) - total_commission
  { id := new_id
    stock_code := position.stock_code
    stock_name := position.stock_name
    open_time := position.open_time
    close_time := some close_time
    updated_at := none
    shares := shares_to_close
    commission := some total_commission
    buy_commission := some closed_buy_commission
    sell_commission := some sell_commission
    buy_price := position.buy_price
    sell_price := some sell_price
    stop_loss_price := position.stop_loss_price
    take_profit_price := position.take_profit_price
    profit_loss := some profit_loss
    theoretical_risk_reward_ratio := position.theoretical_risk_reward_ratio
    actual_risk_reward_ratio := arr
    order_result := some order_label
    notes := some (position.notes.getD "")
    status := "closed"
    is_deleted := false }

/-- The shrunk still-open original after a partial close (lines 303–304,
332–335 and 454–455, 483–486): quantity and entry fee reduced by the closed
slice, status untouched. -/
def splitCloseRemainder (position : Trade) (shares_to_close : ℤ) (close_time : DT) : Trade :=
  let original_buy_commission := position.buy_commission.getD 0
  let closed_buy_commission :=
    closedBuyCommission original_buy_commission shares_to_close position.shares
  let remaining_shares := position.shares - shares_to_close
  let remaining_buy_commission := round6 (original_buy_commission - closed_buy_commission)
  { position with
    shares := remaining_shares
    buy_commission := some remaining_buy_commission
    commission := some remaining_buy_commission
    updated_at := some close_time }

/-- The in-place full close (lines 271–281 and 428–438). -/
def fullCloseUpdate (position : Trade) (sell_price : ℚ) (close_time : DT)
    (order_label : String) (arr : Option ℚ) : Trade :=
  let sell_commission :=
    calculate_sell_commission default_calculator sell_price position.shares
      position.stock_code
  let original_buy_commission := position.buy_commission.getD 0
  let total_commission := original_buy_commission + sell_commission
  let profit_loss :=
    (sell_price - position.buy_price) * (position.shares : ℚ) - total_commission
  { position with
    close_time := some close_time
    sell_price := some sell_price
    status := "closed"
    order_result := some order_label
    profit_loss := some profit_loss
    sell_commission := some sell_commission
    commission := some total_commission
    actual_risk_reward_ratio := arr
    updated_at := some close_time }

/-- `take_profit` (`positions.py` lines 219–351), from the validated open
position; `new_id` stands for the store-assigned id of the created record. -/
def take_profit (position : Trade) (sell_price : ℚ) (requested_shares : Option ℤ)
    (close_time0 : DT) (new_id : ℤ) : Except String CloseResult :=
  let close_time := clampCloseTime position close_time0
  match validate_partial_close_shares position.shares requested_shares with
  | .error e => .error e
  | .ok shares_to_close =>
    if shares_to_close = position.shares then
      .ok (.full (fullCloseUpdate position sell_price close_time "止盈"
        (tpActualRrr position sell_price)))
    else
      .ok (.split
        (splitCloseSlice position sell_price shares_to_close close_time new_id "止盈"
          (tpActualRrr position sell_price))
        (splitCloseRemainder position shares_to_close close_time))

/-- `stop_loss` (`positions.py` lines 376–502): identical to `take_profit`
except for the order-result label and the actual risk/reward formula. -/
def stop_loss (position : Trade) (sell_price : ℚ) (requested_shares : Option ℤ)
    (close_time0 : DT) (new_id : ℤ) : Except String CloseResult :=
  let close_time := clampCloseTime position close_time0
  match validate_partial_close_shares position.shares requested_shares with
  | .error e => .error e
  | .ok shares_to_close =>
    if shares_to_close = position.shares then
      .ok (.full (fullCloseUpdate position sell_price close_time "止损"
        (slActualRrr position sell_price)))
    else
      .ok (.split
        (splitCloseSlice position sell_price shares_to_close close_time new_id "止损"
          (slActualRrr position sell_price))
        (splitCloseRemainder position shares_to_close close_time))


/-! ## Forex account reconciliation (`routers/forex.py`) -/

/-- A `ForexTrade` row.  `lots`/`open_price` are `NOT NULL` columns, but the
margin code re-checks them for NULL defensively, so they are `Option`s here;
the call sites that read them unguarded use `getD 0` (never reached on
schema-conforming rows). -/
structure ForexTrade where
  id : ℤ
  strategy_id : Option ℤ
  symbol : String
  side : String
  lots : Option ℚ
  open_time : DT
  close_time : Option DT
  open_price : Option ℚ
  close_price : Option ℚ
  commission : Option ℚ
  swap : Option ℚ
  profit : Option ℚ
  status : String
  is_deleted : Bool
deriving DecidableEq

/-- The `ForexAccount` row: configuration plus the seven derived metrics. -/
structure ForexAccount where
  leverage : Option ℚ
  initial_balance : Option ℚ
  initial_date : Option Day
  balance : ℚ
  equity : ℚ
  margin : ℚ
  free_margin : ℚ
  margin_level : ℚ
  max_drawdown : ℚ
  peak_equity : ℚ
deriving DecidableEq

/-- `_contract_size`: 100 for XAUUSD (case-insensitively), else 100000. -/
def contract_size (symbol : String) : ℚ :=
  if pyUpper symbol = "XAUUSD" then 100 else 100000

/-- `_calc_profit`: signed gross profit of a position. -/
def calc_profit (symbol side : String) (lots open_price close_price : ℚ) : ℚ :=
  let diff := if pyUpper side = "BUY" then close_price - open_price
              else open_price - close_price
  diff * lots * contract_size symbol

/-- `_calc_margin`: sum of per-position margins, skipping NULL/non-positive
price or lots, and 0 outright when leverage ≤ 0. -/
def calc_margin (positions : List ForexTrade) (leverage : ℚ) : ℚ :=
  if leverage ≤ 0 then 0
  else
    positions.foldl (fun m p =>
      match p.open_price with
      | none => m
      | some op =>
        if op ≤ 0 then m
        else
          match p.lots with
          | none => m
          | some l =>
            if l ≤ 0 then m
            else m + op * l * contract_size p.symbol / leverage) 0

/-- The strategy-scope filter
`ForexTrade.strategy_id == strategy_id if strategy_id is not None else True`. -/
def fxScopeOk (sid : Option ℤ) (t : ForexTrade) : Bool :=
  match sid with
  | none => true
  | some i => t.strategy_id = some i

/-- The closed-trade query of `_recalculate_account` (lines 144–155). -/
def fxClosedInScope (sid : Option ℤ) (t : ForexTrade) : Bool :=
  !t.is_deleted && t.status = "closed" && t.close_time.isSome && fxScopeOk sid t

/-- The open-position query of `_recalculate_account` (lines 172–179). -/
def fxOpenInScope (sid : Option ℤ) (t : ForexTrade) : Bool :=
  !t.is_deleted && t.status = "open" && fxScopeOk sid t

/-- Sort key of the closed-trade walk: `order_by(ForexTrade.close_time.asc())`. -/
def fxCloseLe (a b : ForexTrade) : Prop :=
  DT.le (a.close_time.getD ⟨0, 0⟩) (b.close_time.getD ⟨0, 0⟩)

instance : DecidableRel fxCloseLe := fun a b => by unfold fxCloseLe; infer_instance

/-- The `continue` guard of line 162: skip trades closed strictly before the
anchor date. -/
def fxAnchorSkip (anchor_date : Option Day) (t : ForexTrade) : Bool :=
  match anchor_date, t.close_time with
  | some a, some ct => ct.day < a
  | _, _ => false

/-- The profit backfill of lines 164–166: for a closed trade with NULL profit
and a non-NULL close price, the realized net profit written onto the row. -/
def fxProfitPatch (t : ForexTrade) : Option ℚ :=
  match t.profit, t.close_price with
  | none, some cp =>
    some (calc_profit t.symbol t.side (t.lots.getD 0) (t.open_price.getD 0) cp
      - t.commission.getD 0 - t.swap.getD 0)
  | _, _ => none

/-- The running state of the closed-trade walk: balance, running peak, max
drawdown percentage, and the profit values written onto trade rows. -/
structure FxWalk where
  running : ℚ
  peak : ℚ
  max_drawdown : ℚ
  updates : List (ℤ × ℚ)
deriving DecidableEq

/-- One iteration of the closed-trade walk (lines 161–170). -/
def fxWalkStep (anchor_date : Option Day) (st : FxWalk) (t : ForexTrade) : FxWalk :=
  if fxAnchorSkip anchor_date t then st
  else
    let (profit, updates) :=
      match fxProfitPatch t with
      | some p => (some p, st.updates ++ [(t.id, p)])
      | none => (t.profit, st.updates)
    let running := st.running + profit.getD 0
    let peak := max st.peak running
    let dd := if peak ≠ 0 then (peak - running) / peak * 100 else 0
    { running := running, peak := peak, max_drawdown := max st.max_drawdown dd,
      updates := updates }

/-- The floating-P&L loop (lines 185–192): each open position's live quote is
requested; on failure (`none`) the position is skipped, otherwise its
unrealized net profit is accumulated. -/
def floatingPnL (quotes : String → Option ℚ) (positions : List ForexTrade) : ℚ :=
  positions.foldl (fun f p =>
    match quotes p.symbol with
    | none => f
    | some current_price =>
      f + (calc_profit p.symbol p.side (p.lots.getD 0) (p.open_price.getD 0) current_price
        - p.commission.getD 0 - p.swap.getD 0)) 0

/-- First-match association lookup for the collected profit writes. -/
def updLookup (upds : List (ℤ × ℚ)) (i : ℤ) : Option ℚ :=
  (upds.find? (fun u => u.1 = i)).map (fun u => u.2)

/-- The profit write contributed by one closed trade of the walk: nothing when
the anchor guard skips it, else the backfilled profit keyed by the row id. -/
def fxUpdateOf (anchor_date : Option Day) (t : ForexTrade) : Option (ℤ × ℚ) :=
  if fxAnchorSkip anchor_date t then none
  else (fxProfitPatch t).map (fun p => (t.id, p))

/-- Anchor-date resolution of `_recalculate_account` (lines 134–140):
per-strategy when scoped (`strategy.initial_date or anchor_date`), else the
account's. -/
def fxAnchorDate (account : ForexAccount) (scope : Option (ℤ × Strategy)) : Option Day :=
  match scope with
  | none => account.initial_date
  | some (_, s) => (s.initial_date).orElse fun _ => account.initial_date

/-- Initial-balance resolution of `_recalculate_account` (lines 135–142). -/
def fxInitialBalance (account : ForexAccount) (scope : Option (ℤ × Strategy)) : ℚ :=
  match scope with
  | none => account.initial_balance.getD 0
  | some (_, s) =>
    match s.initial_capital with
    | some c => c
    | none => account.initial_balance.getD 0

/-- `_recalculate_account(db, user_id, strategy_id)` (`forex.py` lines
131–204), from the account row, the optionally scoped strategy row (paired
with its id), the forex trade table and the quote provider, to the updated
account row and trade table. -/
def recalculate_account (account : ForexAccount) (scope : Option (ℤ × Strategy))
    (trades : List ForexTrade) (quotes : String → Option ℚ) :
    ForexAccount × List ForexTrade :=
  let anchor_date := fxAnchorDate account scope
  let initial_balance := fxInitialBalance account scope
  let sid := scope.map (fun x => x.1)
  let closed := (trades.filter (fxClosedInScope sid)).insertionSort fxCloseLe
  let walk := closed.foldl (fxWalkStep anchor_date)
    ⟨initial_balance, initial_balance, 0, []⟩
  let open_positions := trades.filter (fxOpenInScope sid)
  let margin := calc_margin open_positions (account.leverage.getD 0)
  let floating := floatingPnL quotes open_positions
  let equity := walk.running + floating
  let account' :=
    { account with
      balance := walk.running
      equity := equity
      margin := margin
      free_margin := equity - margin
      margin_level := if 0 < margin then equity / margin * 100 else 0
      peak_equity := max walk.peak equity
      max_drawdown := walk.max_drawdown }
  let trades' := trades.map (fun t =>
    match updLookup walk.updates t.id with
    | some p => { t with profit := some p }
    | none => t)
  (account', trades')

/-! ## Claim-side helper definitions -/

/-- The per-position margin contribution as a standalone value: NULL or
non-positive price or lots contribute nothing, otherwise
`open_price × lots × contract_size / leverage`. -/
def marginContribution (leverage : ℚ) (p : ForexTrade) : ℚ :=
  match p.open_price with
  | none => 0
  | some op =>
    if op ≤ 0 then 0
    else
      match p.lots with
      | none => 0
      | some l => if l ≤ 0 then 0 else op * l * contract_size p.symbol / leverage

/-- The floating-P&L contribution of one open position: 0 on quote failure,
else the unrealized net profit at the live quote. -/
def fxFloatContribution (quotes : String → Option ℚ) (p : ForexTrade) : ℚ :=
  match quotes p.symbol with
  | none => 0
  | some current_price =>
    calc_profit p.symbol p.side (p.lots.getD 0) (p.open_price.getD 0) current_price
      - p.commission.getD 0 - p.swap.getD 0

/-- The per-row effect of the forex reconciliation on a trade: a closed,
non-deleted, in-scope trade whose close date is not before the anchor, whose
profit is NULL and whose close price is non-NULL receives the backfilled
profit; every other row (and every other field) is unchanged. -/
def fxProfitFixed (sid : Option ℤ) (anchor_date : Option Day) (t : ForexTrade) : ForexTrade :=
  if fxClosedInScope sid t && !fxAnchorSkip anchor_date t then
    match fxProfitPatch t with
    | some p => { t with profit := some p }
    | none => t
  else t

/-- Rewrite a trade's `status` field (and nothing else). -/
def setStatus (f : Trade → String) (t : Trade) : Trade := { t with status := f t }

/-- `setStatus` lifted to a replay event. -/
def evSetStatus (f : Trade → String) (e : Event) : Event :=
  { e with trade := setStatus f e.trade }

/-- `setStatus` lifted to the open-position dict. -/
def posMap (f : Trade → String) (ps : List (ℤ × Trade)) : List (ℤ × Trade) :=
  ps.map (fun p => (p.1, setStatus f p.2))

/-! ## Concrete example states (for counterexamples and witnesses) -/

/-- A minimal open stock trade: 100 shares at 10, day 0, no fees recorded. -/
def exTrade : Trade :=
  { id := 1, stock_code := "000001", stock_name := none,
    open_time := ⟨0, 0⟩, close_time := none, updated_at := none,
    shares := 100, commission := none, buy_commission := none, sell_commission := none,
    buy_price := 10, sell_price := none, stop_loss_price := none,
    take_profit_price := none, profit_loss := none,
    theoretical_risk_reward_ratio := none, actual_risk_reward_ratio := none,
    order_result := none, notes := none, status := "open", is_deleted := false }

/-- A strategy anchored at day 0 with capital 100000. -/
def exStrategy : Strategy := ⟨some 100000, some 0⟩

/-- A user row with no initial-capital configuration. -/
def exUser : UserRec := ⟨none, none⟩

/-- A persisted snapshot table holding the anchor snapshot and a stale day-1
snapshot with available funds 999. -/
def exSnaps : List Snapshot :=
  [⟨0, 100000, some 100000, some 0⟩, ⟨1, 999, some 999, some 0⟩]

/-- The spec §8 example trade: 1000 shares at 10 with entry fee 5, closed at 12
with exit fee 6 and stored realized P&L 1989. -/
def exTradeB : Trade :=
  { exTrade with
    shares := 1000
    buy_commission := some 5
    sell_commission := some 6
    sell_price := some 12
    close_time := some ⟨3, 0⟩
    profit_loss := some 1989 }

/-- `exTrade` soft-deleted. -/
def exTradeDeleted : Trade := { exTrade with is_deleted := true }

/-- A 300-share position at 10 with entry fee 9, on a Shanghai code. -/
def exPosition : Trade :=
  { exTrade with
    id := 7
    stock_code := "600000"
    shares := 300
    commission := some 9
    buy_commission := some 9 }

/-- The spec §8 forex example position: LONG EURUSD, 1.0 lot at 1.1000. -/
def exFxPos : ForexTrade :=
  { id := 1, strategy_id := none, symbol := "EURUSD", side := "LONG",
    lots := some 1, open_time := ⟨0, 0⟩, close_time := none,
    open_price := some (11 / 10), close_price := none, commission := none,
    swap := none, profit := none, status := "open", is_deleted := false }

/-- A closed BUY EURUSD trade, 1.0 lot, 1.1000 → 1.2000, with NULL profit. -/
def exFxClosed : ForexTrade :=
  { exFxPos with
    id := 2
    side := "BUY"
    close_time := some ⟨1, 0⟩
    close_price := some (12 / 10)
    status := "closed" }

/-- A forex account with leverage 100, anchored at day 0 with balance 10000. -/
def exFxAccount : ForexAccount :=
  { leverage := some 100, initial_balance := some 10000, initial_date := some 0,
    balance := 0, equity := 0, margin := 0, free_margin := 0, margin_level := 0,
    max_drawdown := 0, peak_equity := 0 }

/-! ## Helper lemmas -/

theorem round6_sub_le (y : ℚ) : |round6 y - y| ≤ 1 / 2000000 := by
  unfold round6
  have h := abs_sub_round (y * 1000000)
  rw [abs_sub_comm] at h
  have hrw : (round (y * 1000000) : ℚ) / 1000000 - y
      = ((round (y * 1000000) : ℚ) - y * 1000000) / 1000000 := by ring
  rw [hrw, abs_div, show |(1000000 : ℚ)| = 1000000 from by norm_num,
    div_le_iff₀ (by norm_num : (0 : ℚ) < 1000000)]
  linarith

theorem calc_margin_go (leverage : ℚ) (l : List ForexTrade) (a : ℚ) :
    l.foldl (fun m p =>
      match p.open_price with
      | none => m
      | some op =>
        if op ≤ 0 then m
        else
          match p.lots with
          | none => m
          | some lt =>
            if lt ≤ 0 then m
            else m + op * lt * contract_size p.symbol / leverage) a
      = a + (l.map (marginContribution leverage)).sum := by
  induction l generalizing a with
  | nil => simp
  | cons p l ih =>
    simp only [List.foldl_cons, List.map_cons, List.sum_cons]
    rw [ih]
    unfold marginContribution
    cases hop : p.open_price with
    | none => ring
    | some op =>
      by_cases hop0 : op ≤ 0
      · simp only [if_pos hop0]; ring
      · simp only [if_neg hop0]
        cases hl : p.lots with
        | none => ring
        | some lt =>
          by_cases hl0 : lt ≤ 0
          · simp only [if_pos hl0]; ring
          · simp only [if_neg hl0]; ring

/-! ## C8 -/

/-- **C8, counterexample.**  The claim says the fee functions reject
non-positive price or quantity.  They do not: at price −1 and quantity 100
(`price ≤ 0`) both functions return a fee — the buy fee is the 5.0 commission
floor and the sell fee is 4.9 — and signal no error (the source functions
contain no validation and no raise at all). -/
theorem fee_nonpositive_price_returns_fee :
    calculate_buy_commission default_calculator (-1) 100 = 5 ∧
    calculate_sell_commission default_calculator (-1) 100 "000001" = 49 / 10 := by
  constructor <;>
    norm_num [calculate_buy_commission, calculate_sell_commission, default_calculator,
      pyStartsWith, round2, round_eq, show ('0' : Char) ≠ '6' from by decide]

/-- **C8, amended.**  The fee functions perform no input validation and have
no error conditions: they are total, and whenever the trade amount
`price × quantity` is non-positive — in particular whenever exactly one of
price and quantity is non-positive — the commission component falls below the
floor, so the buy fee equals the minimum commission 5.0 and the sell fee is
the rounded sum of that floor, the stamp tax and the Shanghai transfer fee on
the (non-positive) trade amount. -/
theorem fee_no_validation_floor (price : ℚ) (shares : ℤ) (stock_code : String)
    (h : price * (shares : ℚ) ≤ 0) :
    calculate_buy_commission default_calculator price shares = 5 ∧
    calculate_sell_commission default_calculator price shares stock_code =
      round2 (5 + price * (shares : ℚ) * (1 / 1000) +
        (if pyStartsWith stock_code ('6') then price * (shares : ℚ) * (2 / 10000) else 0)) := by
  have hc : price * (shares : ℚ) * (3 / 10000) < 5 := by nlinarith
  constructor
  · simp only [calculate_buy_commission, default_calculator]
    rw [if_pos hc]
    norm_num [round2, round_eq]
  · simp only [calculate_sell_commission, default_calculator]
    rw [if_pos hc]

/-- **C8, witness** for the amended claim at price −1, quantity 100. -/
theorem fee_no_validation_floor_witness :
    ((-1 : ℚ) * ((100 : ℤ) : ℚ) ≤ 0) ∧
    (calculate_buy_commission default_calculator (-1) 100 = 5 ∧
     calculate_sell_commission default_calculator (-1) 100 "600000" =
       round2 (5 + (-1 : ℚ) * ((100 : ℤ) : ℚ) * (1 / 1000) +
         (if pyStartsWith "600000" ('6') then
            (-1 : ℚ) * ((100 : ℤ) : ℚ) * (2 / 10000) else 0))) :=
  ⟨by norm_num, fee_no_validation_floor (-1) 100 "600000" (by norm_num)⟩

/-! ## C6 -/

/-- **C6.**  The reconciled margin is the sum over open positions of
`open_price × lots × contract_size(symbol) / leverage`, where a position with
NULL or non-positive price or lots contributes nothing; the whole margin is 0
when leverage ≤ 0; the contract size is 100 for XAUUSD and 100000 for every
other symbol (symbol identity is case-insensitive, as the lookup uppercases);
and the spec example — LONG EURUSD, 1.0 lot at 1.1000, leverage 100 — yields
margin 1100. -/
theorem margin_formula (positions : List ForexTrade) (leverage : ℚ) (s : String)
    (h : pyUpper s ≠ "XAUUSD") :
    (0 < leverage →
      calc_margin positions leverage
        = (positions.map (marginContribution leverage)).sum) ∧
    (leverage ≤ 0 → calc_margin positions leverage = 0) ∧
    contract_size "XAUUSD" = 100 ∧ contract_size s = 100000 ∧
    calc_margin [exFxPos] 100 = 1100 := by
  refine ⟨fun hlev => ?_, fun hlev => ?_, by decide, ?_, ?_⟩
  · unfold calc_margin
    rw [if_neg (not_le.mpr hlev)]
    simpa using calc_margin_go leverage positions 0
  · unfold calc_margin
    rw [if_pos hlev]
  · unfold contract_size
    rw [if_neg h]
  · norm_num [calc_margin, exFxPos, contract_size, List.foldl,
      show pyUpper "EURUSD" ≠ "XAUUSD" from by decide]

/-- **C6, witness** at leverage 100 and symbol EURUSD. -/
theorem margin_formula_witness :
    (pyUpper "EURUSD" ≠ "XAUUSD") ∧
    ((0 < (100 : ℚ) →
      calc_margin [] 100 = (([] : List ForexTrade).map (marginContribution 100)).sum) ∧
     ((100 : ℚ) ≤ 0 → calc_margin [] 100 = 0) ∧
     contract_size "XAUUSD" = 100 ∧ contract_size "EURUSD" = 100000 ∧
     calc_margin [exFxPos] 100 = 1100) :=
  ⟨by decide, margin_formula [] 100 "EURUSD" (by decide)⟩

/-! ## C5 -/

/-- **C5.**  For an open position of `Q` shares with entry fee `F` and a
requested close quantity `K` with `0 < K < Q` passing validation (`K > 0`,
`K ≤ Q`, `K` a multiple of 100), both `take_profit` and `stop_loss` split the
position: the new closed record carries `K` shares and entry fee
`round(F·K/Q, 6)`, the original remains open with `Q − K` shares and entry fee
`round(F − round(F·K/Q, 6), 6)`; the quantities sum to `Q` exactly and the two
entry fees sum to `F` within the 6-decimal rounding tolerance. -/
theorem split_close_conservation (position : Trade) (F sell_price : ℚ) (K : ℤ)
    (ct : DT) (new_id : ℤ)
    (hF : position.buy_commission = some F)
    (h0 : 0 < K) (hKQ : K < position.shares) (h100 : K % 100 = 0) :
    ∃ c p c2 p2,
      take_profit position sell_price (some K) ct new_id = .ok (.split c p) ∧
      stop_loss position sell_price (some K) ct new_id = .ok (.split c2 p2) ∧
      c.shares = K ∧ p.shares = position.shares - K ∧
      c.buy_commission = some (round6 (F * ((K : ℚ) / (position.shares : ℚ)))) ∧
      p.buy_commission =
        some (round6 (F - round6 (F * ((K : ℚ) / (position.shares : ℚ))))) ∧
      c2.shares = c.shares ∧ p2.shares = p.shares ∧
      c2.buy_commission = c.buy_commission ∧ p2.buy_commission = p.buy_commission ∧
      p.status = position.status ∧ p2.status = position.status ∧
      c.status = "closed" ∧
      c.shares + p.shares = position.shares ∧
      |round6 (F * ((K : ℚ) / (position.shares : ℚ)))
          + round6 (F - round6 (F * ((K : ℚ) / (position.shares : ℚ)))) - F|
        ≤ 1 / 2000000 := by
  have hne : K ≠ position.shares := ne_of_lt hKQ
  have hvld : validate_partial_close_shares position.shares (some K) = .ok K := by
    unfold validate_partial_close_shares
    simp only [Option.getD_some]
    rw [if_neg (not_le.mpr h0), if_neg (not_lt.mpr (le_of_lt hKQ)),
      if_neg (fun hn => hn h100)]
  refine ⟨splitCloseSlice position sell_price K (clampCloseTime position ct) new_id "止盈"
      (tpActualRrr position sell_price),
    splitCloseRemainder position K (clampCloseTime position ct),
    splitCloseSlice position sell_price K (clampCloseTime position ct) new_id "止损"
      (slActualRrr position sell_price),
    splitCloseRemainder position K (clampCloseTime position ct),
    ?_, ?_, rfl, rfl, ?_, ?_, rfl, rfl, rfl, rfl, rfl, rfl, rfl,
    by show K + (position.shares - K) = position.shares; omega, ?_⟩
  · simp only [take_profit, hvld, if_neg hne]
  · simp only [stop_loss, hvld, if_neg hne]
  · simp only [splitCloseSlice, closedBuyCommission, hF, Option.getD_some, if_neg hne]
  · simp only [splitCloseRemainder, closedBuyCommission, hF, Option.getD_some, if_neg hne]
  · have h1 := round6_sub_le (F - round6 (F * ((K : ℚ) / (position.shares : ℚ))))
    calc |round6 (F * ((K : ℚ) / (position.shares : ℚ)))
            + round6 (F - round6 (F * ((K : ℚ) / (position.shares : ℚ)))) - F|
        = |round6 (F - round6 (F * ((K : ℚ) / (position.shares : ℚ))))
            - (F - round6 (F * ((K : ℚ) / (position.shares : ℚ))))| := by
          ring_nf
      _ ≤ 1 / 2000000 := h1

/-- **C5, witness**: a 300-share position with entry fee 9, closing 100 shares
at price 12. -/
theorem split_close_conservation_witness :
    (exPosition.buy_commission = some 9 ∧ (0 : ℤ) < 100 ∧ (100 : ℤ) < exPosition.shares ∧
      (100 : ℤ) % 100 = 0) ∧
    (∃ c p c2 p2,
      take_profit exPosition 12 (some 100) ⟨5, 0⟩ 99 = .ok (.split c p) ∧
      stop_loss exPosition 12 (some 100) ⟨5, 0⟩ 99 = .ok (.split c2 p2) ∧
      c.shares = 100 ∧ p.shares = exPosition.shares - 100 ∧
      c.buy_commission = some (round6 (9 * ((100 : ℚ) / (exPosition.shares : ℚ)))) ∧
      p.buy_commission =
        some (round6 (9 - round6 (9 * ((100 : ℚ) / (exPosition.shares : ℚ))))) ∧
      c2.shares = c.shares ∧ p2.shares = p.shares ∧
      c2.buy_commission = c.buy_commission ∧ p2.buy_commission = p.buy_commission ∧
      p.status = exPosition.status ∧ p2.status = exPosition.status ∧
      c.status = "closed" ∧
      c.shares + p.shares = exPosition.shares ∧
      |round6 (9 * ((100 : ℚ) / (exPosition.shares : ℚ)))
          + round6 (9 - round6 (9 * ((100 : ℚ) / (exPosition.shares : ℚ)))) - 9|
        ≤ 1 / 2000000) :=
  ⟨⟨rfl, by decide, by decide, by decide⟩,
    split_close_conservation exPosition 9 12 100 ⟨5, 0⟩ 99 rfl (by decide) (by decide)
      (by decide)⟩

/-! ## C7 -/

theorem floatingPnL_go (quotes : String → Option ℚ) (l : List ForexTrade) (a : ℚ) :
    l.foldl (fun f p =>
      match quotes p.symbol with
      | none => f
      | some current_price =>
        f + (calc_profit p.symbol p.side (p.lots.getD 0) (p.open_price.getD 0) current_price
          - p.commission.getD 0 - p.swap.getD 0)) a
      = a + (l.map (fxFloatContribution quotes)).sum := by
  induction l generalizing a with
  | nil => simp
  | cons p l ih =>
    simp only [List.foldl_cons, List.map_cons, List.sum_cons]
    rw [ih]
    unfold fxFloatContribution
    cases hq : quotes p.symbol with
    | none => ring
    | some cp => ring

theorem floatingPnL_sum (quotes : String → Option ℚ) (ps : List ForexTrade) :
    floatingPnL quotes ps = (ps.map (fxFloatContribution quotes)).sum := by
  unfold floatingPnL
  simpa using floatingPnL_go quotes ps 0

theorem floatingPnL_filter_ok (quotes : String → Option ℚ) (ps : List ForexTrade) :
    floatingPnL quotes ps
      = floatingPnL quotes (ps.filter (fun q => (quotes q.symbol).isSome)) := by
  rw [floatingPnL_sum, floatingPnL_sum]
  induction ps with
  | nil => rfl
  | cons p ps ih =>
    cases hq : quotes p.symbol with
    | none =>
      have hz : fxFloatContribution quotes p = 0 := by
        unfold fxFloatContribution
        rw [hq]
      simp [hq, hz, ih]
    | some cp => simp [hq, ih]

/-- **C7.**  A quote-fetch failure for an open position is soft-skipped: the
failed position contributes nothing to the floating P&L (and hence to equity);
reconciliation runs to completion for every quote provider — including one that
fails on every symbol — and the account metrics are all computed and written;
no failure is surfaced (in the source every exception from the fetch is caught
by the bare `except` and the loop `continue`s). -/
theorem quote_failure_soft_skip (account : ForexAccount) (scope : Option (ℤ × Strategy))
    (trades : List ForexTrade) (quotes : String → Option ℚ) (p : ForexTrade)
    (ps : List ForexTrade) :
    ((recalculate_account account scope trades quotes).1.equity
      = (recalculate_account account scope trades quotes).1.balance
        + floatingPnL quotes (trades.filter (fxOpenInScope (scope.map (fun x => x.1))))) ∧
    floatingPnL quotes ps
      = floatingPnL quotes (ps.filter (fun q => (quotes q.symbol).isSome)) ∧
    floatingPnL quotes (ps ++ [p])
      = floatingPnL quotes ps + fxFloatContribution quotes p ∧
    (recalculate_account account scope trades quotes).1.margin
      = calc_margin (trades.filter (fxOpenInScope (scope.map (fun x => x.1))))
          (account.leverage.getD 0) ∧
    (recalculate_account account scope trades quotes).1.free_margin
      = (recalculate_account account scope trades quotes).1.equity
        - (recalculate_account account scope trades quotes).1.margin ∧
    (recalculate_account account scope trades (fun _ => none)).1.equity
      = (recalculate_account account scope trades (fun _ => none)).1.balance := by
  refine ⟨rfl, floatingPnL_filter_ok quotes ps, ?_, rfl, rfl, ?_⟩
  · rw [floatingPnL_sum, floatingPnL_sum]
    simp
  · have hz : floatingPnL (fun _ => none) (trades.filter
        (fxOpenInScope (scope.map (fun x => x.1)))) = 0 := by
      rw [floatingPnL_sum]
      apply List.sum_eq_zero
      intro x hx
      obtain ⟨q, _, hq⟩ := List.mem_map.mp hx
      unfold fxFloatContribution at hq
      simpa using hq.symm
    calc (recalculate_account account scope trades (fun _ => none)).1.equity
        = (recalculate_account account scope trades (fun _ => none)).1.balance
          + floatingPnL (fun _ => none)
              (trades.filter (fxOpenInScope (scope.map (fun x => x.1)))) := rfl
      _ = (recalculate_account account scope trades (fun _ => none)).1.balance := by
          rw [hz, add_zero]

/-! ## C1 -/

/-- Line 880 (`start_date = anchor_date`) makes the engine independent of its
`start_date` argument: the guard `start_date > anchor_date` of the resume
branch (lines 905–938) compares the anchor with itself and never fires, so
every call is the unconditional full rebuild from the anchor. -/
theorem recalc_eq_fullRebuild (strategy : Strategy) (user : UserRec)
    (trades : List Trade) (snaps : List Snapshot) (today : Day) (start_date : Day) :
    recalculate_strategy_capital_history strategy user trades snaps today start_date
      = recalcFullRebuild strategy user trades snaps today := by
  unfold recalculate_strategy_capital_history recalcFullRebuild
  simp only [lt_irrefl, if_false]

/-- **C1, counterexample.**  Anchor (100000, day 0); one still-open trade of
100 shares at 10 opened on day 0; a persisted day-1 snapshot with available
funds 999; requested `start_date = 2` (strictly later than the anchor).  The
claim requires the replay to load that day-1 snapshot, carry in its available
funds 999, and leave history before day 2 alone.  Instead the engine rebuilds
everything from the anchor: the day-1 snapshot is deleted, the carry-in is the
anchor capital 100000, the single surviving snapshot is day 0 with available
funds 99000 = 100000 − cost — and the call is indistinguishable from
`start_date = 0`. -/
theorem resume_dead_counterexample :
    (recalculate_strategy_capital_history exStrategy exUser [exTrade] exSnaps 9 2).2
      = [⟨0, 100000, some 99000, some 1000⟩] ∧
    exSnaps = [⟨0, 100000, some 100000, some 0⟩, ⟨1, 999, some 999, some 0⟩] ∧
    recalculate_strategy_capital_history exStrategy exUser [exTrade] exSnaps 9 2
      = recalculate_strategy_capital_history exStrategy exUser [exTrade] exSnaps 9 0 := by
  refine ⟨?_, rfl, ?_⟩
  · norm_num [recalculate_strategy_capital_history, resolveAnchor, exStrategy, exUser,
      exTrade, exSnaps, replayFrom, buildEvents, tradeInScope, eventsOfTrade, closeDT,
      List.insertionSort, List.orderedInsert, List.flatMap, replayStep, buyCommissionOf,
      posInsert, posErase, posValue, recInsert, recLookup, reconcileRange, applySnap,
      mkSnap, DT.le, DT.lt, tradeLe, eventLe, List.foldl, List.filter, List.find?]
  · rw [recalc_eq_fullRebuild, recalc_eq_fullRebuild]

/-- **C1, amended.**  For a stock strategy with an existing anchor and any
requested `start_date` (later than the anchor or not), the replay ignores
`start_date` entirely: line 880 overwrites it with the anchor date before
first use, so the resume optimization — loading the most recent snapshot
strictly before `start_date`, carrying in its available funds and
reconstructing the open-position set at that boundary — is dead code, and
every call is the full rebuild from the anchor. -/
theorem replay_ignores_start_date (strategy : Strategy) (user : UserRec)
    (trades : List Trade) (snaps : List Snapshot) (today : Day) (s₁ s₂ : Day) :
    recalculate_strategy_capital_history strategy user trades snaps today s₁
      = recalculate_strategy_capital_history strategy user trades snaps today s₂ ∧
    recalculate_strategy_capital_history strategy user trades snaps today s₁
      = recalcFullRebuild strategy user trades snaps today := by
  refine ⟨?_, recalc_eq_fullRebuild strategy user trades snaps today s₁⟩
  rw [recalc_eq_fullRebuild, recalc_eq_fullRebuild]

/-! ## C2 -/

theorem replayFrom_no_events (ic : Money) (anchor : Day) (af0 : Money)
    (pos0 : List (ℤ × Trade)) (trades : List Trade) (snaps1 : List Snapshot)
    (irec : Snapshot) (hev : buildEvents anchor trades = []) :
    replayFrom ic anchor anchor af0 pos0 trades snaps1 irec
      = [{ irec with
            capital := ic
            available_funds := some ic
            position_value := some 0 }] := by
  unfold replayFrom
  rw [hev]
  simp

theorem anchorRecordDate (l : List Snapshot) (d : Day) (c : Money) :
    ((l.find? (fun r => r.date = d)).getD ⟨d, c, some c, some 0⟩).date = d := by
  cases hf : l.find? (fun r => r.date = d) with
  | none => rfl
  | some r =>
    have := List.find?_some hf
    simpa using this

/-- **C2.**  For a strategy with an anchor `(c, a)` whose set of non-deleted
trades is empty (in particular after soft-deleting every trade), the replay
leaves exactly one persisted snapshot: the anchor-date snapshot with available
funds `c`, position value 0 and total equity `c`; every snapshot at any other
date is deleted. -/
theorem clear_all_collapses (strategy : Strategy) (user : UserRec)
    (trades : List Trade) (snaps : List Snapshot) (today : Day) (s : Day)
    (a : Day) (c : Money)
    (hdate : strategy.initial_date = some a)
    (hcap : strategy.initial_capital = some c)
    (hempty : trades.filter (fun t => !t.is_deleted) = []) :
    (recalculate_strategy_capital_history strategy user trades snaps today s).2
      = [⟨a, c, some c, some 0⟩] := by
  rw [recalc_eq_fullRebuild]
  have hres : resolveAnchor strategy user trades today = strategy := by
    unfold resolveAnchor
    rw [hdate]
  have hscope : trades.filter (tradeInScope a) = [] := by
    rw [List.filter_eq_nil_iff]
    intro t ht
    have hdel := List.filter_eq_nil_iff.mp hempty t ht
    unfold tradeInScope
    simp only [Bool.not_eq_true] at hdel ⊢
    simp [hdel]
  have hev : buildEvents a trades = [] := by
    unfold buildEvents
    rw [hscope]
    rfl
  simp only [recalcFullRebuild, hres, hdate, hcap, Option.getD_some]
  rw [replayFrom_no_events _ _ _ _ _ _ _ hev]
  have hone : ∀ r : Snapshot, r.date = a →
      ({ r with
          capital := c
          available_funds := some c
          position_value := some 0 } : Snapshot) = ⟨a, c, some c, some 0⟩ := by
    intro r hr
    cases r
    simp_all
  rw [hone _ (anchorRecordDate (seedSnaps snaps a c) a c)]

/-- **C2, witness**: one soft-deleted trade, two stale snapshots; the replay
collapses the table to the anchor snapshot. -/
theorem clear_all_collapses_witness :
    (exStrategy.initial_date = some 0 ∧ exStrategy.initial_capital = some 100000 ∧
      [exTradeDeleted].filter (fun t => !t.is_deleted) = []) ∧
    (recalculate_strategy_capital_history exStrategy exUser [exTradeDeleted] exSnaps
        9 7).2
      = [⟨0, 100000, some 100000, some 0⟩] :=
  ⟨⟨rfl, rfl, rfl⟩,
    clear_all_collapses exStrategy exUser [exTradeDeleted] exSnaps 9 7 0 100000
      rfl rfl rfl⟩

/-! ## C3 -/

/-- The snapshot-row form of the equity invariant. -/
def SnapInv (r : Snapshot) : Prop :=
  r.available_funds.isSome = true ∧ r.position_value.isSome = true ∧
    r.capital = r.available_funds.getD 0 + r.position_value.getD 0

/-- The computed-record form of the equity invariant. -/
def RecInv (v : RecVal) : Prop := v.total = v.af + v.pv

theorem recInsert_inv {rs : List (Day × RecVal)} {d : Day} {v : RecVal}
    (hrs : ∀ p ∈ rs, RecInv p.2) (hv : RecInv v) :
    ∀ p ∈ recInsert rs d v, RecInv p.2 := by
  intro p hp
  unfold recInsert at hp
  by_cases hany : rs.any (fun r => r.1 = d)
  · simp only [hany, if_true] at hp
    obtain ⟨q, hq, hpq⟩ := List.mem_map.mp hp
    by_cases hqd : q.1 = d
    · simp only [hqd, if_pos] at hpq
      rw [← hpq]
      exact hv
    · simp only [if_neg hqd] at hpq
      rw [← hpq]
      exact hrs q hq
  · simp only [hany, if_false] at hp
    rcases List.mem_append.mp hp with hql | hqr
    · exact hrs p hql
    · rw [List.mem_singleton.mp hqr]
      exact hv

theorem recLookup_inv {rs : List (Day × RecVal)} {d : Day} {v : RecVal}
    (hrs : ∀ p ∈ rs, RecInv p.2) (hlk : recLookup rs d = some v) : RecInv v := by
  unfold recLookup at hlk
  cases hfind : rs.find? (fun r => r.1 = d) with
  | none => rw [hfind] at hlk; cases hlk
  | some q =>
    rw [hfind] at hlk
    cases hlk
    exact hrs q (List.mem_of_find?_eq_some hfind)

theorem replayStep_records_eq (st : RState) (e : Event) :
    ∃ v, (replayStep st e).records = recInsert st.records e.date v ∧ RecInv v := by
  unfold replayStep
  cases hk : e.kind <;> dsimp only
  · exact ⟨_, rfl, rfl⟩
  · cases hsp : e.trade.sell_price <;> dsimp only
    · exact ⟨_, rfl, rfl⟩
    · cases hpl : e.trade.profit_loss <;> dsimp only
      · exact ⟨_, rfl, rfl⟩
      · exact ⟨_, rfl, rfl⟩

theorem replayStep_records_inv {st : RState} {e : Event}
    (hst : ∀ p ∈ st.records, RecInv p.2) :
    ∀ p ∈ (replayStep st e).records, RecInv p.2 := by
  obtain ⟨v, heq, hv⟩ := replayStep_records_eq st e
  rw [heq]
  exact recInsert_inv hst hv

theorem foldl_replayStep_records_inv (events : List Event) (st : RState)
    (hst : ∀ p ∈ st.records, RecInv p.2) :
    ∀ p ∈ (events.foldl replayStep st).records, RecInv p.2 := by
  induction events generalizing st with
  | nil => exact hst
  | cons e events ih =>
    rw [List.foldl_cons]
    exact ih _ (replayStep_records_inv hst)

theorem reconcileRange_inv (snaps1 : List Snapshot) (start : Day)
    (rs : List (Day × RecVal))
    (hmin1 : ∀ r ∈ snaps1, start ≤ r.date)
    (hP : ∀ p ∈ rs, RecInv p.2) :
    ∀ r ∈ reconcileRange snaps1 start rs, SnapInv r := by
  intro r hr
  unfold reconcileRange at hr
  rcases List.mem_append.mp hr with hk | hua
  · rcases List.mem_append.mp hk with hkept | hupd
    · have h1 := List.mem_filter.mp hkept
      have h2 := hmin1 r h1.1
      have h3 : r.date < start := by simpa using h1.2
      exact absurd h2 (not_le.mpr h3)
    · obtain ⟨r0, hr0, hmap⟩ := List.mem_map.mp hupd
      have h0 := List.mem_filter.mp hr0
      rw [← hmap]
      unfold applySnap
      cases hlk : recLookup rs r0.date with
      | none => simp [hlk] at h0
      | some v =>
        have hv := recLookup_inv hP hlk
        exact ⟨rfl, rfl, by simpa using hv⟩
  · obtain ⟨p, hp, hmap⟩ := List.mem_map.mp hua
    have hpv := hP p (List.mem_of_mem_filter hp)
    rw [← hmap]
    exact ⟨rfl, rfl, by simpa using hpv⟩

theorem replayFrom_inv (ic : Money) (anchor : Day) (af0 : Money)
    (pos0 : List (ℤ × Trade)) (trades : List Trade) (snaps1 : List Snapshot)
    (irec : Snapshot) (hmin1 : ∀ r ∈ snaps1, anchor ≤ r.date) :
    ∀ r ∈ replayFrom ic anchor anchor af0 pos0 trades snaps1 irec, SnapInv r := by
  unfold replayFrom
  by_cases hev : (buildEvents anchor trades).isEmpty
  · simp only [hev, if_true, if_pos rfl]
    intro r hr
    rw [List.mem_singleton.mp hr]
    exact ⟨rfl, rfl, by simp⟩
  · simp only [hev, Bool.false_eq_true, if_false]
    apply reconcileRange_inv _ _ _ hmin1
    apply foldl_replayStep_records_inv
    intro p hp
    simp only [if_pos rfl] at hp
    rw [List.mem_singleton.mp hp]
    exact show ic = ic + 0 by ring

/-- **C3.**  Every snapshot row the replay writes or updates — including the
seeded anchor snapshot — stores `capital` (the total equity) exactly equal to
`available_funds + position_value`, and after a replay every persisted
snapshot of the strategy satisfies this invariant (using the data model's own
invariant that no snapshot predates the anchor). -/
theorem snapshot_equity_invariant (strategy : Strategy) (user : UserRec)
    (trades : List Trade) (snaps : List Snapshot) (today : Day) (s : Day)
    (a : Day)
    (hdate : strategy.initial_date = some a)
    (hmin : ∀ r ∈ snaps, a ≤ r.date) :
    ∀ r ∈ (recalculate_strategy_capital_history strategy user trades snaps today s).2,
      r.available_funds.isSome = true ∧ r.position_value.isSome = true ∧
      r.capital = r.available_funds.getD 0 + r.position_value.getD 0 := by
  rw [recalc_eq_fullRebuild]
  have hres : resolveAnchor strategy user trades today = strategy := by
    unfold resolveAnchor
    rw [hdate]
  simp only [recalcFullRebuild, hres, hdate, Option.getD_some]
  apply replayFrom_inv
  intro r hr
  unfold seedSnaps at hr
  cases hfind : snaps.find? (fun x => x.date = a) with
  | none =>
    rw [hfind] at hr
    rcases List.mem_append.mp hr with h1 | h2
    · exact hmin r h1
    · rw [List.mem_singleton.mp h2]
  | some q =>
    rw [hfind] at hr
    exact hmin r hr

/-- **C3, witness** on the spec §8 example state. -/
theorem snapshot_equity_invariant_witness :
    (exStrategy.initial_date = some 0 ∧ ∀ r ∈ exSnaps, (0 : ℤ) ≤ r.date) ∧
    (∀ r ∈ (recalculate_strategy_capital_history exStrategy exUser [exTradeB] exSnaps
        9 2).2,
      r.available_funds.isSome = true ∧ r.position_value.isSome = true ∧
      r.capital = r.available_funds.getD 0 + r.position_value.getD 0) :=
  ⟨⟨rfl, by decide⟩,
    snapshot_equity_invariant exStrategy exUser [exTradeB] exSnaps 9 2 0 rfl
      (by decide)⟩

/-! ## C4 -/

theorem eventsOfTrade_date_ge (start : Day) (t : Trade) :
    ∀ e ∈ eventsOfTrade start t, start ≤ e.date := by
  intro e he
  unfold eventsOfTrade at he
  rcases List.mem_append.mp he with h1 | h2
  · by_cases h : start ≤ t.open_time.day
    · rw [if_pos h] at h1
      rw [List.mem_singleton.mp h1]
      exact h
    · rw [if_neg h] at h1
      cases h1
  · cases hsp : t.sell_price with
    | none => rw [hsp] at h2; cases h2
    | some sp =>
      rw [hsp] at h2
      dsimp only at h2
      by_cases h : start ≤ (closeDT t).day
      · rw [if_pos h] at h2
        rw [List.mem_singleton.mp h2]
        exact h
      · rw [if_neg h] at h2
        cases h2

theorem buildEvents_date_ge (start : Day) (trades : List Trade) :
    ∀ e ∈ buildEvents start trades, start ≤ e.date := by
  intro e he
  unfold buildEvents at he
  rw [List.mem_insertionSort] at he
  obtain ⟨t, _, hev⟩ := List.mem_flatMap.mp he
  exact eventsOfTrade_date_ge start t e hev

/-- Well-formedness of the computed record map during a replay from `start`:
duplicate-free keys, all keys on/after `start`, and the start date present. -/
def RecordsWF (start : Day) (rs : List (Day × RecVal)) : Prop :=
  (rs.map (fun p => p.1)).Nodup ∧ (∀ p ∈ rs, start ≤ p.1) ∧ ∃ p ∈ rs, p.1 = start

theorem recInsert_wf {start : Day} {rs : List (Day × RecVal)} {d : Day} {v : RecVal}
    (h : RecordsWF start rs) (hd : start ≤ d) : RecordsWF start (recInsert rs d v) := by
  obtain ⟨hnd, hge, p0, hp0, he0⟩ := h
  unfold recInsert
  by_cases hany : rs.any (fun r => r.1 = d)
  · rw [if_pos hany]
    refine ⟨?_, ?_, ?_⟩
    · have hkeys : (rs.map (fun p => if p.1 = d then (d, v) else p)).map (fun p => p.1)
          = rs.map (fun p => p.1) := by
        rw [List.map_map]
        apply List.map_congr_left
        intro p _
        by_cases hpd : p.1 = d
        · simp [hpd]
        · simp [hpd]
      rw [hkeys]
      exact hnd
    · intro p hp
      obtain ⟨q, hq, hqe⟩ := List.mem_map.mp hp
      by_cases hqd : q.1 = d
      · rw [if_pos hqd] at hqe
        rw [← hqe]
        exact hd
      · rw [if_neg hqd] at hqe
        rw [← hqe]
        exact hge q hq
    · refine ⟨if p0.1 = d then (d, v) else p0, List.mem_map_of_mem _ hp0, ?_⟩
      by_cases hpd : p0.1 = d
      · rw [if_pos hpd]
        rw [← hpd, he0]
      · rw [if_neg hpd]
        exact he0
  · rw [if_neg hany]
    refine ⟨?_, ?_, ⟨p0, List.mem_append_left _ hp0, he0⟩⟩
    · rw [List.map_append]
      refine List.Nodup.append hnd (List.nodup_singleton _) ?_
      intro x hx hx2
      rw [List.mem_singleton.mp hx2] at hx
      obtain ⟨q, hq, hqe⟩ := List.mem_map.mp hx
      exact hany (List.any_eq_true.mpr ⟨q, hq, by simpa using hqe⟩)
    · intro p hp
      rcases List.mem_append.mp hp with h1 | h2
      · exact hge p h1
      · rw [List.mem_singleton.mp h2]
        exact hd

theorem foldl_replayStep_wf (events : List Event) (st : RState) (start : Day)
    (hst : RecordsWF start st.records) (hev : ∀ e ∈ events, start ≤ e.date) :
    RecordsWF start ((events.foldl replayStep st).records) := by
  induction events generalizing st with
  | nil => exact hst
  | cons e events ih =>
    rw [List.foldl_cons]
    refine ih _ ?_ (fun x hx => hev x (List.mem_cons_of_mem _ hx))
    obtain ⟨v, heq, _⟩ := replayStep_records_eq st e
    rw [heq]
    exact recInsert_wf hst (hev e (List.mem_cons_self _ _))

theorem recLookup_isSome_of_key {rs : List (Day × RecVal)} {d : Day}
    (h : ∃ p ∈ rs, p.1 = d) : (recLookup rs d).isSome = true := by
  unfold recLookup
  obtain ⟨p, hp, he⟩ := h
  have hf : (rs.find? (fun r => r.1 = d)).isSome := by
    rw [List.find?_isSome]
    exact ⟨p, hp, by simp [he]⟩
  cases hfind : rs.find? (fun r => r.1 = d) with
  | none => rw [hfind] at hf; cases hf
  | some q => rfl

theorem recLookup_self {rs : List (Day × RecVal)}
    (hnd : (rs.map (fun p => p.1)).Nodup) {p : Day × RecVal} (hp : p ∈ rs) :
    recLookup rs p.1 = some p.2 := by
  unfold recLookup
  cases hfind : rs.find? (fun r => r.1 = p.1) with
  | none =>
    have := List.find?_eq_none.mp hfind p hp
    simp at this
  | some q =>
    have hq1 : q.1 = p.1 := by
      have := List.find?_some hfind
      simpa using this
    have hqp : q = p := by
      have hinj := List.inj_on_of_nodup_map hnd
      exact hinj (List.mem_of_find?_eq_some hfind) hp hq1
    rw [hqp]
    rfl

theorem applySnap_date (rs : List (Day × RecVal)) (r : Snapshot) :
    (applySnap rs r).date = r.date := by
  unfold applySnap
  cases recLookup rs r.date <;> rfl

theorem applySnap_applySnap (rs : List (Day × RecVal)) (r : Snapshot) :
    applySnap rs (applySnap rs r) = applySnap rs r := by
  cases r with
  | mk rd rc raf rpv =>
    cases hlk : recLookup rs rd with
    | none => simp [applySnap, hlk]
    | some v => simp [applySnap, hlk]

theorem applySnap_mkSnap {rs : List (Day × RecVal)}
    (hnd : (rs.map (fun p => p.1)).Nodup) {p : Day × RecVal} (hp : p ∈ rs) :
    applySnap rs (mkSnap p) = mkSnap p := by
  unfold applySnap mkSnap
  rw [show (⟨p.1, p.2.total, some p.2.af, some p.2.pv⟩ : Snapshot).date = p.1 from rfl,
    recLookup_self hnd hp]

/-- Every computed key is represented in the reconciled snapshot set, at a row
with that date in the `date ≥ start` region. -/
theorem reconcileRange_key_covered (snaps1 : List Snapshot) (start : Day)
    (rs : List (Day × RecVal)) {d : Day} (hd : ∃ p ∈ rs, p.1 = d) :
    ∃ r ∈ (((snaps1.filter (fun r => start ≤ r.date)).filter
            (fun r => (recLookup rs r.date).isSome)).map (applySnap rs) ++
          (rs.filter (fun p =>
            !((snaps1.filter (fun r => start ≤ r.date)).any (fun r => r.date = p.1)))).map
            mkSnap),
      r.date = d := by
  obtain ⟨p, hp, hpd⟩ := hd
  by_cases hin : (snaps1.filter (fun r => start ≤ r.date)).any (fun r => r.date = p.1)
  · obtain ⟨r0, hr0, hr0d⟩ := List.any_eq_true.mp hin
    have hr0d : r0.date = p.1 := by simpa using hr0d
    refine ⟨applySnap rs r0, List.mem_append_left _ ?_, by rw [applySnap_date, hr0d, hpd]⟩
    refine List.mem_map_of_mem _ (List.mem_filter.mpr ⟨hr0, ?_⟩)
    rw [hr0d]
    exact recLookup_isSome_of_key ⟨p, hp, rfl⟩
  · refine ⟨mkSnap p, List.mem_append_right _ ?_, by rw [show (mkSnap p).date = p.1 from rfl, hpd]⟩
    refine List.mem_map_of_mem _ (List.mem_filter.mpr ⟨hp, ?_⟩)
    simp only [Bool.not_eq_true] at hin
    simp [hin]

theorem reconcileRange_mem_date_cases (snaps1 : List Snapshot) (start : Day)
    (rs : List (Day × RecVal)) (hge : ∀ p ∈ rs, start ≤ p.1) {r : Snapshot}
    (hr : r ∈ reconcileRange snaps1 start rs) :
    (r.date < start ∧ r ∈ snaps1.filter (fun r => r.date < start)) ∨
      (start ≤ r.date ∧ (recLookup rs r.date).isSome = true) := by
  unfold reconcileRange at hr
  rcases List.mem_append.mp hr with hk | ha
  · rcases List.mem_append.mp hk with hkept | hupd
    · exact Or.inl ⟨by simpa using (List.mem_filter.mp hkept).2, hkept⟩
    · obtain ⟨r0, hr0, hmap⟩ := List.mem_map.mp hupd
      have h0 := List.mem_filter.mp hr0
      have h00 := List.mem_filter.mp h0.1
      refine Or.inr ⟨?_, ?_⟩
      · rw [← hmap, applySnap_date]
        simpa using h00.2
      · rw [← hmap, applySnap_date]
        exact h0.2
  · obtain ⟨p, hp, hmap⟩ := List.mem_map.mp ha
    have hpmem := List.mem_of_mem_filter hp
    refine Or.inr ⟨?_, ?_⟩
    · rw [← hmap]
      exact hge p hpmem
    · rw [← hmap]
      exact recLookup_isSome_of_key ⟨p, hpmem, rfl⟩

/-- Re-running the reconciliation write over its own output with the same
computed records changes nothing: in-range rows are re-updated to the values
they already hold, every computed date is already present (so nothing is
added), and no persisted date falls outside the computed map (so nothing is
deleted). -/
theorem reconcileRange_idem (snaps1 : List Snapshot) (start : Day)
    (rs : List (Day × RecVal)) (hnd : (rs.map (fun p => p.1)).Nodup)
    (hge : ∀ p ∈ rs, start ≤ p.1) :
    reconcileRange (reconcileRange snaps1 start rs) start rs
      = reconcileRange snaps1 start rs := by
  set I := snaps1.filter (fun r => start ≤ r.date) with hI
  set U := (I.filter (fun r => (recLookup rs r.date).isSome)).map (applySnap rs) with hU
  set A := (rs.filter (fun p => !(I.any (fun r => r.date = p.1)))).map mkSnap with hA
  set K := snaps1.filter (fun r => r.date < start) with hK
  have hR : reconcileRange snaps1 start rs = K ++ U ++ A := rfl
  have fK : ∀ r ∈ K, r.date < start := by
    intro r hr
    simpa using (List.mem_filter.mp hr).2
  have fU : ∀ r ∈ U, start ≤ r.date ∧ (recLookup rs r.date).isSome = true := by
    intro r hr
    obtain ⟨r0, hr0, hmap⟩ := List.mem_map.mp hr
    have h0 := List.mem_filter.mp hr0
    have h00 := List.mem_filter.mp h0.1
    refine ⟨?_, ?_⟩
    · rw [← hmap, applySnap_date]
      simpa using h00.2
    · rw [← hmap, applySnap_date]
      exact h0.2
  have fA : ∀ r ∈ A, start ≤ r.date ∧ (recLookup rs r.date).isSome = true := by
    intro r hr
    obtain ⟨p, hp, hmap⟩ := List.mem_map.mp hr
    have hpmem := List.mem_of_mem_filter hp
    refine ⟨?_, ?_⟩
    · rw [← hmap]
      exact hge p hpmem
    · rw [← hmap]
      exact recLookup_isSome_of_key ⟨p, hpmem, rfl⟩
  have eK1 : K.filter (fun r => r.date < start) = K :=
    List.filter_eq_self.mpr (fun r hr => by simp [fK r hr])
  have eU1 : U.filter (fun r => r.date < start) = [] :=
    List.filter_eq_nil_iff.mpr (fun r hr => by simp [not_lt.mpr (fU r hr).1])
  have eA1 : A.filter (fun r => r.date < start) = [] :=
    List.filter_eq_nil_iff.mpr (fun r hr => by simp [not_lt.mpr (fA r hr).1])
  have eK2 : K.filter (fun r => start ≤ r.date) = [] :=
    List.filter_eq_nil_iff.mpr (fun r hr => by simp [not_le.mpr (fK r hr)])
  have eU2 : U.filter (fun r => start ≤ r.date) = U :=
    List.filter_eq_self.mpr (fun r hr => by simp [(fU r hr).1])
  have eA2 : A.filter (fun r => start ≤ r.date) = A :=
    List.filter_eq_self.mpr (fun r hr => by simp [(fA r hr).1])
  have eUA3 : (U ++ A).filter (fun r => (recLookup rs r.date).isSome) = U ++ A := by
    refine List.filter_eq_self.mpr (fun r hr => ?_)
    rcases List.mem_append.mp hr with h | h
    · simp [(fU r h).2]
    · simp [(fA r h).2]
  have eUA4 : (U ++ A).map (applySnap rs) = U ++ A := by
    have hid : ∀ r ∈ U ++ A, applySnap rs r = id r := by
      intro r hr
      rcases List.mem_append.mp hr with h | h
      · obtain ⟨r0, _, hmap⟩ := List.mem_map.mp h
        rw [← hmap]
        exact applySnap_applySnap rs r0
      · obtain ⟨p, hp, hmap⟩ := List.mem_map.mp h
        rw [← hmap]
        exact applySnap_mkSnap hnd (List.mem_of_mem_filter hp)
    rw [List.map_congr_left hid, List.map_id]
  have eAdd : rs.filter (fun p => !((U ++ A).any (fun r => r.date = p.1))) = [] := by
    refine List.filter_eq_nil_iff.mpr (fun p hp => ?_)
    obtain ⟨r, hr, hrd⟩ := reconcileRange_key_covered snaps1 start rs ⟨p, hp, rfl⟩
    have : (U ++ A).any (fun r => r.date = p.1) = true :=
      List.any_eq_true.mpr ⟨r, hr, by simp [hrd]⟩
    simp [this]
  have eq1 : (K ++ U ++ A).filter (fun r => r.date < start) = K := by
    rw [List.filter_append, List.filter_append, eK1, eU1, eA1]
    simp
  have eq2 : (K ++ U ++ A).filter (fun r => start ≤ r.date) = U ++ A := by
    rw [List.filter_append, List.filter_append, eK2, eU2, eA2]
    simp
  rw [hR]
  simp only [reconcileRange]
  rw [eq1, eq2, eUA3, eUA4, eAdd]
  simp

/-- Feeding the replay its own output back (same trades, same anchor, same
carried-in state) reproduces that output exactly. -/
theorem replayFrom_again (ic : Money) (a : Day) (trades : List Trade)
    (snaps1 : List Snapshot) (irec : Snapshot) (hirecd : irec.date = a) :
    replayFrom ic a a ic [] trades
        (seedSnaps (replayFrom ic a a ic [] trades snaps1 irec) a ic)
        (((seedSnaps (replayFrom ic a a ic [] trades snaps1 irec) a ic).find?
            (fun r => r.date = a)).getD ⟨a, ic, some ic, some 0⟩)
      = replayFrom ic a a ic [] trades snaps1 irec := by
  by_cases hev : (buildEvents a trades).isEmpty = true
  · have hev' : buildEvents a trades = [] := List.isEmpty_iff.mp hev
    rw [replayFrom_no_events ic a ic [] trades snaps1 irec hev']
    have hf : ([{ irec with
        capital := ic
        available_funds := some ic
        position_value := some 0 }].find? (fun r => r.date = a))
        = some { irec with
            capital := ic
            available_funds := some ic
            position_value := some 0 } := by
      rw [List.find?_cons_of_pos]
      simpa using hirecd
    unfold seedSnaps
    simp only [hf, Option.getD_some]
    rw [replayFrom_no_events ic a ic [] trades _ _ hev']
  · set rsF := ((buildEvents a trades).foldl replayStep
      ⟨ic, [], if a = a then [(a, ⟨ic, 0, ic⟩)] else []⟩).records with hrsF
    have hwf : RecordsWF a rsF := by
      rw [hrsF]
      apply foldl_replayStep_wf _ _ _ ?_ (buildEvents_date_ge a trades)
      show RecordsWF a (if a = a then [(a, (⟨ic, 0, ic⟩ : RecVal))] else [])
      rw [if_pos rfl]
      refine ⟨by simp, by simp, ⟨(a, ⟨ic, 0, ic⟩), List.mem_singleton_self _, rfl⟩⟩
    obtain ⟨hnd, hge, hex⟩ := hwf
    have hR : replayFrom ic a a ic [] trades snaps1 irec
        = reconcileRange snaps1 a rsF := by
      unfold replayFrom
      rw [if_neg hev]
    obtain ⟨r, hrUA, hrd⟩ := reconcileRange_key_covered snaps1 a rsF hex
    have hrR : r ∈ reconcileRange snaps1 a rsF := by
      unfold reconcileRange
      rcases List.mem_append.mp hrUA with h | h
      · exact List.mem_append.mpr (Or.inl (List.mem_append.mpr (Or.inr h)))
      · exact List.mem_append.mpr (Or.inr h)
    have hfs : ((reconcileRange snaps1 a rsF).find? (fun r => r.date = a)).isSome = true :=
      List.find?_isSome.mpr ⟨r, hrR, by simp [hrd]⟩
    obtain ⟨r2, hf2⟩ := Option.isSome_iff_exists.mp hfs
    rw [hR]
    unfold seedSnaps
    simp only [hf2, Option.getD_some]
    show replayFrom ic a a ic [] trades (reconcileRange snaps1 a rsF) r2
        = reconcileRange snaps1 a rsF
    unfold replayFrom
    rw [if_neg hev]
    exact reconcileRange_idem snaps1 a rsF hnd hge

theorem resolveAnchor_idem (strategy : Strategy) (user : UserRec)
    (trades : List Trade) (today : Day) :
    resolveAnchor (resolveAnchor strategy user trades today) user trades today
      = resolveAnchor strategy user trades today := by
  unfold resolveAnchor
  cases hd : strategy.initial_date <;> simp [hd]

/-- The full rebuild is idempotent: run on its own output with the same
trades, it returns its output unchanged. -/
theorem fullRebuild_idem (strategy : Strategy) (user : UserRec)
    (trades : List Trade) (snaps : List Snapshot) (today : Day) :
    recalcFullRebuild (recalcFullRebuild strategy user trades snaps today).1 user trades
        (recalcFullRebuild strategy user trades snaps today).2 today
      = recalcFullRebuild strategy user trades snaps today := by
  unfold recalcFullRebuild
  dsimp only
  rw [resolveAnchor_idem]
  simp only [Prod.mk.injEq]
  exact ⟨trivial, replayFrom_again _ _ trades _ _ (anchorRecordDate _ _ _)⟩

/-- **C4.**  Replay is idempotent: with the trade set and anchor fixed,
running the engine a second time on its own output (same strategy scope, same
requested start date, no intervening mutation) computes the identical
`(date, available_funds, position_value, total_equity)` tuples, upserts the
same values onto the same rows, adds nothing and deletes nothing — the
persisted snapshot set and the strategy row are exactly those of the first
run.  (The snapshot table's unique-date constraint is assumed, as in the
database schema.) -/
theorem replay_idempotent (strategy : Strategy) (user : UserRec)
    (trades : List Trade) (snaps : List Snapshot) (today : Day) (s : Day)
    (hnodup : (snaps.map (fun r => r.date)).Nodup) :
    recalculate_strategy_capital_history
        (recalculate_strategy_capital_history strategy user trades snaps today s).1 user
        trades (recalculate_strategy_capital_history strategy user trades snaps today s).2
        today s
      = recalculate_strategy_capital_history strategy user trades snaps today s := by
  simp only [recalc_eq_fullRebuild]
  exact fullRebuild_idem strategy user trades snaps today

/-- **C4, witness** on the spec §8 example state. -/
theorem replay_idempotent_witness :
    ((exSnaps.map (fun r => r.date)).Nodup) ∧
    (recalculate_strategy_capital_history
        (recalculate_strategy_capital_history exStrategy exUser [exTradeB] exSnaps 9 2).1
        exUser [exTradeB]
        (recalculate_strategy_capital_history exStrategy exUser [exTradeB] exSnaps 9 2).2
        9 2
      = recalculate_strategy_capital_history exStrategy exUser [exTradeB] exSnaps 9 2) :=
  ⟨by decide, replay_idempotent exStrategy exUser [exTradeB] exSnaps 9 2 (by decide)⟩

/-! ## C9: the forex reconciliation writes profit onto trade rows -/

theorem fxWalk_updates (anchor_date : Option Day) (l : List ForexTrade) (st : FxWalk) :
    (l.foldl (fxWalkStep anchor_date) st).updates
      = st.updates ++ l.filterMap (fxUpdateOf anchor_date) := by
  induction l generalizing st with
  | nil => simp
  | cons t l ih =>
    rw [List.foldl_cons, ih]
    unfold fxWalkStep fxUpdateOf
    by_cases hsk : fxAnchorSkip anchor_date t = true
    · simp [hsk]
    · simp only [Bool.not_eq_true] at hsk
      cases hp : fxProfitPatch t with
      | none => simp [hsk, hp]
      | some p => simp [hsk, hp]

theorem updLookup_eq_some {upds : List (ℤ × ℚ)} {i : ℤ} {p : ℚ}
    (hmem : (i, p) ∈ upds) (huniq : ∀ q ∈ upds, q.1 = i → q.2 = p) :
    updLookup upds i = some p := by
  unfold updLookup
  cases hf : upds.find? (fun u => u.1 = i) with
  | none =>
    have := List.find?_eq_none.mp hf (i, p) hmem
    simp at this
  | some q =>
    have h1 : q.1 = i := by simpa using List.find?_some hf
    have h2 := huniq q (List.mem_of_find?_eq_some hf) h1
    simp [h2]

theorem updLookup_eq_none {upds : List (ℤ × ℚ)} {i : ℤ}
    (h : ∀ q ∈ upds, q.1 ≠ i) : updLookup upds i = none := by
  unfold updLookup
  rw [List.find?_eq_none.mpr]
  · rfl
  · intro x hx
    simpa using h x hx

theorem fxUpdateOf_eq_some {anchor_date : Option Day} {t : ForexTrade} {q : ℤ × ℚ}
    (h : fxUpdateOf anchor_date t = some q) :
    fxAnchorSkip anchor_date t = false ∧ q.1 = t.id ∧ fxProfitPatch t = some q.2 := by
  unfold fxUpdateOf at h
  by_cases hsk : fxAnchorSkip anchor_date t = true
  · simp [hsk] at h
  · simp only [Bool.not_eq_true] at hsk
    refine ⟨hsk, ?_⟩
    rw [hsk] at h
    simp only [Bool.false_eq_true, if_false, Option.map_eq_some'] at h
    obtain ⟨p, hp, hq⟩ := h
    subst hq
    exact ⟨rfl, hp⟩

theorem fxUpdates_mem {sid : Option ℤ} {anchor_date : Option Day}
    {trades : List ForexTrade} {q : ℤ × ℚ}
    (hq : q ∈ ((trades.filter (fxClosedInScope sid)).insertionSort fxCloseLe).filterMap
        (fxUpdateOf anchor_date)) :
    ∃ t, t ∈ trades ∧ fxClosedInScope sid t = true ∧ fxUpdateOf anchor_date t = some q := by
  obtain ⟨t, ht, hft⟩ := List.mem_filterMap.mp hq
  rw [List.mem_insertionSort] at ht
  obtain ⟨htm, hcs⟩ := List.mem_filter.mp ht
  exact ⟨t, htm, hcs, hft⟩

theorem fxUpdates_mem_of {sid : Option ℤ} {anchor_date : Option Day}
    {trades : List ForexTrade} {t : ForexTrade} {q : ℤ × ℚ}
    (htm : t ∈ trades) (hcs : fxClosedInScope sid t = true)
    (hft : fxUpdateOf anchor_date t = some q) :
    q ∈ ((trades.filter (fxClosedInScope sid)).insertionSort fxCloseLe).filterMap
        (fxUpdateOf anchor_date) := by
  refine List.mem_filterMap.mpr ⟨t, ?_, hft⟩
  rw [List.mem_insertionSort]
  exact List.mem_filter.mpr ⟨htm, hcs⟩

theorem recalculate_account_trades (account : ForexAccount) (scope : Option (ℤ × Strategy))
    (trades : List ForexTrade) (quotes : String → Option ℚ)
    (hids : (trades.map (fun t => t.id)).Nodup) :
    (recalculate_account account scope trades quotes).2
      = trades.map
          (fxProfitFixed (scope.map (fun x => x.1)) (fxAnchorDate account scope)) := by
  have h0 : (recalculate_account account scope trades quotes).2
      = trades.map (fun t =>
          match updLookup
            (((trades.filter (fxClosedInScope (scope.map (fun x => x.1)))).insertionSort
                fxCloseLe).filterMap (fxUpdateOf (fxAnchorDate account scope))) t.id with
          | some p => { t with profit := some p }
          | none => t) := by
    show (recalculate_account account scope trades quotes).2 = _
    unfold recalculate_account
    dsimp only
    rw [fxWalk_updates]
    rfl
  rw [h0]
  apply List.map_congr_left
  intro t htm
  have hinj : ∀ t' ∈ trades, t'.id = t.id → t' = t := fun t' ht'm hid =>
    List.inj_on_of_nodup_map hids ht'm htm hid
  by_cases hget : fxClosedInScope (scope.map (fun x => x.1)) t = true
      ∧ ∃ p, fxUpdateOf (fxAnchorDate account scope) t = some (t.id, p)
  · obtain ⟨hcs, p, hup⟩ := hget
    obtain ⟨hskip, -, hpatch⟩ := fxUpdateOf_eq_some hup
    have hlook : updLookup
        (((trades.filter (fxClosedInScope (scope.map (fun x => x.1)))).insertionSort
            fxCloseLe).filterMap (fxUpdateOf (fxAnchorDate account scope))) t.id
        = some p := by
      refine updLookup_eq_some (fxUpdates_mem_of htm hcs hup) ?_
      intro q hq hqi
      obtain ⟨t', ht'm, hcs', hft'⟩ := fxUpdates_mem hq
      obtain ⟨-, hqid, -⟩ := fxUpdateOf_eq_some hft'
      have ht'eq : t' = t := hinj t' ht'm (hqid ▸ hqi)
      subst ht'eq
      rw [hft'] at hup
      cases hup
      rfl
    rw [hlook]
    unfold fxProfitFixed
    rw [hcs, hskip]
    simp only [Bool.not_false, Bool.and_true, if_true, hpatch]
  · have hnone : ∀ q ∈ ((trades.filter
        (fxClosedInScope (scope.map (fun x => x.1)))).insertionSort
          fxCloseLe).filterMap (fxUpdateOf (fxAnchorDate account scope)),
        q.1 ≠ t.id := by
      intro q hq hqi
      obtain ⟨t', ht'm, hcs', hft'⟩ := fxUpdates_mem hq
      obtain ⟨-, hqid, -⟩ := fxUpdateOf_eq_some hft'
      have ht'eq : t' = t := hinj t' ht'm (hqid ▸ hqi)
      subst ht'eq
      exact hget ⟨hcs', q.2, by rw [hft', ← hqi]⟩
    rw [updLookup_eq_none hnone]
    unfold fxProfitFixed
    by_cases hcs : fxClosedInScope (scope.map (fun x => x.1)) t = true
    · rw [hcs]
      by_cases hsk : fxAnchorSkip (fxAnchorDate account scope) t = true
      · rw [hsk]
        simp
      · simp only [Bool.not_eq_true] at hsk
        rw [hsk]
        simp only [Bool.not_false, Bool.and_true, if_true]
        cases hp : fxProfitPatch t with
        | none => rfl
        | some p =>
          exact (hget ⟨hcs, p, by
            unfold fxUpdateOf
            rw [hsk]
            simp only [Bool.false_eq_true, if_false, hp, Option.map_some']⟩).elim
    · simp only [Bool.not_eq_true] at hcs
      rw [hcs]
      simp

theorem fxProfitPatch_formula (t : ForexTrade) (cp : ℚ)
    (hprofit : t.profit = none) (hcp : t.close_price = some cp) :
    fxProfitPatch t
      = some ((if pyUpper t.side = "BUY" then 1 else -1) * (cp - t.open_price.getD 0)
          * t.lots.getD 0 * contract_size t.symbol
          - t.commission.getD 0 - t.swap.getD 0) := by
  unfold fxProfitPatch calc_profit
  rw [hprofit, hcp]
  dsimp only
  by_cases h : pyUpper t.side = "BUY"
  · simp only [if_pos h]
    congr 1
    ring
  · simp only [if_neg h]
    congr 1
    ring

/-- **C9.**  The forex reconciliation is not read-only on trade rows: the
returned trade table is exactly the per-row map of `fxProfitFixed`, which
backfills `profit = direction × (close_price − open_price) × lots ×
contract_size − commission − swap` onto every non-deleted, in-scope, closed
trade whose close date is not before the anchor, whose `profit` is NULL and
whose `close_price` is non-NULL, and leaves every other row — and every other
field of the patched rows — unchanged.  (Row ids are assumed distinct, as the
primary key guarantees.) -/
theorem forex_profit_backfill (account : ForexAccount) (scope : Option (ℤ × Strategy))
    (trades : List ForexTrade) (quotes : String → Option ℚ)
    (hids : (trades.map (fun t => t.id)).Nodup) :
    ((recalculate_account account scope trades quotes).2
      = trades.map
          (fxProfitFixed (scope.map (fun x => x.1)) (fxAnchorDate account scope))) ∧
    (∀ (t : ForexTrade) (cp : ℚ), t.profit = none → t.close_price = some cp →
      fxProfitPatch t
        = some ((if pyUpper t.side = "BUY" then 1 else -1) * (cp - t.open_price.getD 0)
            * t.lots.getD 0 * contract_size t.symbol
            - t.commission.getD 0 - t.swap.getD 0)) :=
  ⟨recalculate_account_trades account scope trades quotes hids,
   fun t cp hprofit hcp => fxProfitPatch_formula t cp hprofit hcp⟩

/-- **C9, witness** on the two-trade example account: the closed BUY trade's
NULL profit is backfilled, the open one is untouched. -/
theorem forex_profit_backfill_witness :
    (([exFxClosed, exFxPos].map (fun t => t.id)).Nodup) ∧
    ((recalculate_account exFxAccount none [exFxClosed, exFxPos] (fun _ => none)).2
      = [exFxClosed, exFxPos].map (fxProfitFixed none (fxAnchorDate exFxAccount none))) :=
  ⟨by decide,
   (forex_profit_backfill exFxAccount none [exFxClosed, exFxPos] (fun _ => none)
      (by decide)).1⟩

/-! ## C10: open-versus-closed is decided by `sell_price` alone -/

theorem eventsOfTrade_trade_eq {start : Day} {t : Trade} {e : Event}
    (he : e ∈ eventsOfTrade start t) : e.trade = t := by
  unfold eventsOfTrade at he
  rw [List.mem_append] at he
  rcases he with h | h
  · split at h
    · rw [List.mem_singleton] at h
      subst h
      rfl
    · cases h
  · rcases hsp : t.sell_price with _ | sp <;> rw [hsp] at h
    · cases h
    · dsimp only at h
      split at h
      · rw [List.mem_singleton] at h
        subst h
        rfl
      · cases h

theorem eventsOfTrade_filter_id_self (start : Day) (t : Trade) :
    (eventsOfTrade start t).filter (fun e => e.trade.id = t.id) = eventsOfTrade start t :=
  List.filter_eq_self.mpr (fun e he => by simp [eventsOfTrade_trade_eq he])

theorem eventsOfTrade_filter_id_ne (start : Day) (t' t : Trade) (hne : t'.id ≠ t.id) :
    (eventsOfTrade start t').filter (fun e => e.trade.id = t.id) = [] :=
  List.filter_eq_nil_iff.mpr (fun e he => by simp [eventsOfTrade_trade_eq he, hne])

theorem eventsOfTrade_of_no_sell {start : Day} {t : Trade} (hsp : t.sell_price = none)
    (hopen : start ≤ t.open_time.day) :
    eventsOfTrade start t = [⟨t.open_time.day, t.open_time, .opn, t⟩] := by
  unfold eventsOfTrade
  rw [hsp, if_pos hopen]
  rfl

theorem eventsOfTrade_cls (start : Day) (t : Trade) :
    (eventsOfTrade start t).filter (fun e => e.kind = EvKind.cls)
      = if t.sell_price.isSome && decide (start ≤ (closeDT t).day)
        then [⟨(closeDT t).day, closeDT t, EvKind.cls, t⟩] else [] := by
  unfold eventsOfTrade
  rw [List.filter_append]
  have h1 : (if start ≤ t.open_time.day
      then [(⟨t.open_time.day, t.open_time, .opn, t⟩ : Event)] else []).filter
        (fun e => e.kind = EvKind.cls) = [] := by
    split <;> simp
  rw [h1, List.nil_append]
  cases hsp : t.sell_price with
  | none => simp
  | some sp =>
    dsimp only
    by_cases hc : start ≤ (closeDT t).day
    · rw [if_pos hc]
      simp [hc]
    · rw [if_neg hc]
      simp [hc]

theorem filter_flatMap_events (p : Event → Bool) (f : Trade → List Event)
    (l : List Trade) :
    (l.flatMap f).filter p = l.flatMap (fun a => (f a).filter p) := by
  induction l with
  | nil => rfl
  | cons a l ih =>
    rw [List.flatMap_cons, List.flatMap_cons, List.filter_append, ih]

theorem flatMap_eq_of_unique (l : List Trade) (t : Trade) (g : Trade → List Event)
    (hl : l.filter (fun a => a.id = t.id) = [t])
    (hg : ∀ a ∈ l, a.id ≠ t.id → g a = []) :
    l.flatMap g = g t := by
  induction l with
  | nil => cases hl
  | cons b l ih =>
    rw [List.flatMap_cons]
    by_cases hb : b.id = t.id
    · rw [List.filter_cons_of_pos (by simpa using hb)] at hl
      injection hl with h1 h2
      subst h1
      have hnil : l.flatMap g = [] := by
        apply List.flatMap_eq_nil_iff.mpr
        intro a ha
        refine hg a (List.mem_cons_of_mem b ha) ?_
        intro hai
        have := List.filter_eq_nil_iff.mp h2 a ha
        simp [hai] at this
      rw [hnil, List.append_nil]
    · rw [List.filter_cons_of_neg (by simpa using hb)] at hl
      rw [hg b (List.mem_cons_self b l) hb, List.nil_append]
      exact ih hl (fun a ha => hg a (List.mem_cons_of_mem b ha))

theorem filter_id_singleton (l : List Trade) (t : Trade)
    (hids : (l.map (fun a => a.id)).Nodup) (htm : t ∈ l) :
    l.filter (fun a => a.id = t.id) = [t] := by
  induction l with
  | nil => cases htm
  | cons b l ih =>
    rw [List.map_cons, List.nodup_cons] at hids
    rcases List.mem_cons.mp htm with h | h
    · subst h
      rw [List.filter_cons_of_pos (by simp)]
      have hnil : l.filter (fun a => a.id = t.id) = [] := by
        apply List.filter_eq_nil_iff.mpr
        intro a ha hpa
        refine hids.1 ?_
        have hai : a.id = t.id := by simpa using hpa
        rw [← hai]
        exact List.mem_map_of_mem _ ha
      rw [hnil]
    · have hbt : b.id ≠ t.id := by
        intro he
        exact hids.1 (he ▸ List.mem_map_of_mem _ h)
      rw [List.filter_cons_of_neg (by simpa using hbt)]
      exact ih hids.2 h

theorem scoped_filter_id (start : Day) (trades : List Trade) (t : Trade)
    (hids : (trades.map (fun a => a.id)).Nodup) (htm : t ∈ trades)
    (hscope : tradeInScope start t = true) :
    ((trades.filter (tradeInScope start)).insertionSort tradeLe).filter
        (fun a => a.id = t.id) = [t] := by
  have h1 : (trades.filter (tradeInScope start)).filter (fun a => a.id = t.id) = [t] := by
    rw [List.filter_comm, filter_id_singleton trades t hids htm,
      List.filter_cons_of_pos hscope]
    rfl
  have hperm := List.Perm.filter (fun a => decide (a.id = t.id))
    (List.perm_insertionSort tradeLe (trades.filter (tradeInScope start)))
  rw [h1] at hperm
  exact List.perm_singleton.mp hperm

theorem buildEvents_filter_id (start : Day) (trades : List Trade) (t : Trade)
    (hids : (trades.map (fun a => a.id)).Nodup) (htm : t ∈ trades)
    (hsp : t.sell_price = none) (hdel : t.is_deleted = false)
    (hopen : start ≤ t.open_time.day) :
    (buildEvents start trades).filter (fun e => e.trade.id = t.id)
      = [⟨t.open_time.day, t.open_time, .opn, t⟩] := by
  have hscope : tradeInScope start t = true := by
    unfold tradeInScope
    rw [hdel]
    simp [hopen]
  have hflat : (((trades.filter (tradeInScope start)).insertionSort tradeLe).flatMap
        (eventsOfTrade start)).filter (fun e => e.trade.id = t.id)
      = [⟨t.open_time.day, t.open_time, .opn, t⟩] := by
    rw [filter_flatMap_events]
    rw [flatMap_eq_of_unique _ t _ (scoped_filter_id start trades t hids htm hscope)
      (fun a _ hane => eventsOfTrade_filter_id_ne start a t hane)]
    rw [eventsOfTrade_filter_id_self, eventsOfTrade_of_no_sell hsp hopen]
  have hperm := List.Perm.filter (fun e => decide (e.trade.id = t.id))
    (List.perm_insertionSort eventLe
      (((trades.filter (tradeInScope start)).insertionSort tradeLe).flatMap
        (eventsOfTrade start)))
  rw [hflat] at hperm
  exact List.perm_singleton.mp hperm

theorem posInsert_self (ps : List (ℤ × Trade)) (i : ℤ) (t : Trade) :
    (i, t) ∈ posInsert ps i t := by
  unfold posInsert
  by_cases h : ps.any (fun p => p.1 = i) = true
  · rw [if_pos h]
    obtain ⟨p, hp, hpi⟩ := List.any_eq_true.mp h
    have hmem := List.mem_map_of_mem (fun p => if p.1 = i then (i, t) else p) hp
    simpa [of_decide_eq_true hpi] using hmem
  · rw [if_neg h]
    exact List.mem_append_right _ (by simp)

theorem posInsert_mem_of_ne {ps : List (ℤ × Trade)} {j : ℤ} {t : Trade}
    (hmem : (j, t) ∈ ps) (i : ℤ) (t' : Trade) (hne : j ≠ i) :
    (j, t) ∈ posInsert ps i t' := by
  unfold posInsert
  by_cases h : ps.any (fun p => p.1 = i) = true
  · rw [if_pos h]
    have := List.mem_map_of_mem (fun p => if p.1 = i then (i, t') else p) hmem
    simpa [hne] using this
  · rw [if_neg h]
    exact List.mem_append_left _ hmem

theorem posErase_mem_of_ne {ps : List (ℤ × Trade)} {j : ℤ} {t : Trade}
    (hmem : (j, t) ∈ ps) (i : ℤ) (hne : j ≠ i) :
    (j, t) ∈ posErase ps i :=
  List.mem_filter.mpr ⟨hmem, by simpa using hne⟩

theorem replayStep_positions_mem {st : RState} {t : Trade}
    (hmem : (t.id, t) ∈ st.positions) (e : Event) (hne : e.trade.id ≠ t.id) :
    (t.id, t) ∈ (replayStep st e).positions := by
  unfold replayStep
  cases hk : e.kind <;> dsimp only
  · exact posInsert_mem_of_ne hmem _ _ (fun h => hne h.symm)
  · cases hsp : e.trade.sell_price <;> dsimp only
    · exact hmem
    · exact posErase_mem_of_ne hmem _ (fun h => hne h.symm)

theorem foldl_preserves_open {t : Trade} (l : List Event) (st : RState)
    (hmem : (t.id, t) ∈ st.positions)
    (hl : ∀ e ∈ l, e.trade.id ≠ t.id) :
    (t.id, t) ∈ (l.foldl replayStep st).positions := by
  induction l generalizing st with
  | nil => exact hmem
  | cons e l ih =>
    rw [List.foldl_cons]
    exact ih _ (replayStep_positions_mem hmem e (hl e (List.mem_cons_self e l)))
      (fun e' he' => hl e' (List.mem_cons_of_mem e he'))

theorem replayStep_opn_positions (st : RState) (d : Day) (dt : DT) (t : Trade) :
    (t.id, t) ∈ (replayStep st ⟨d, dt, .opn, t⟩).positions := by
  unfold replayStep
  dsimp only
  exact posInsert_self st.positions t.id t

theorem foldl_open_of_unique (t : Trade) (l : List Event) (st : RState) (d : Day) (dt : DT)
    (hfilt : l.filter (fun e => e.trade.id = t.id) = [⟨d, dt, .opn, t⟩]) :
    (t.id, t) ∈ (l.foldl replayStep st).positions := by
  induction l generalizing st with
  | nil => cases hfilt
  | cons e l ih =>
    rw [List.foldl_cons]
    by_cases he : e.trade.id = t.id
    · rw [List.filter_cons_of_pos (by simpa using he)] at hfilt
      injection hfilt with h1 h2
      subst h1
      refine foldl_preserves_open l _ (replayStep_opn_positions st d dt t) ?_
      intro e' he'
      have := List.filter_eq_nil_iff.mp h2 e' he'
      simpa using this
    · rw [List.filter_cons_of_neg (by simpa using he)] at hfilt
      exact ih _ hfilt

theorem null_sell_stays_open (start : Day) (trades : List Trade) (t : Trade) (st : RState)
    (hids : (trades.map (fun a => a.id)).Nodup) (htm : t ∈ trades)
    (hsp : t.sell_price = none) (hdel : t.is_deleted = false)
    (hopen : start ≤ t.open_time.day) :
    (t.id, t) ∈ ((buildEvents start trades).foldl replayStep st).positions :=
  foldl_open_of_unique t _ st t.open_time.day t.open_time
    (buildEvents_filter_id start trades t hids htm hsp hdel hopen)

theorem filter_map_setStatus (f : Trade → String) (p : Trade → Bool)
    (hp : ∀ t, p (setStatus f t) = p t) (l : List Trade) :
    (l.map (setStatus f)).filter p = (l.filter p).map (setStatus f) := by
  induction l with
  | nil => rfl
  | cons t l ih =>
    simp only [List.map_cons, List.filter_cons, hp t]
    split
    · rw [List.map_cons, ih]
    · exact ih

theorem foldl_minDT_setStatus (f : Trade → String) (l : List Trade) : ∀ acc,
    (l.map (setStatus f)).foldl
        (fun acc t => optMinDT (optMinDT acc (some t.open_time)) t.close_time) acc
      = l.foldl (fun acc t => optMinDT (optMinDT acc (some t.open_time)) t.close_time)
          acc := by
  induction l with
  | nil => intro acc; rfl
  | cons b l ih =>
    intro acc
    rw [List.map_cons, List.foldl_cons, List.foldl_cons]
    exact ih _

theorem minTradeDT_setStatus (f : Trade → String) (l : List Trade) :
    minTradeDT (l.map (setStatus f)) = minTradeDT l :=
  foldl_minDT_setStatus f l none

theorem resolveAnchor_setStatus (f : Trade → String) (strategy : Strategy)
    (user : UserRec) (trades : List Trade) (today : Day) :
    resolveAnchor strategy user (trades.map (setStatus f)) today
      = resolveAnchor strategy user trades today := by
  unfold resolveAnchor
  cases strategy.initial_date with
  | some d => rfl
  | none =>
    dsimp only
    rw [filter_map_setStatus f (fun t => !t.is_deleted) (fun t => rfl) trades,
      minTradeDT_setStatus]

theorem orderedInsert_map_of_rel {α : Type} {r : α → α → Prop} [DecidableRel r]
    (g : α → α) (hr : ∀ a b, r (g a) (g b) ↔ r a b) (t : α) (l : List α) :
    List.orderedInsert r (g t) (l.map g) = (List.orderedInsert r t l).map g := by
  induction l with
  | nil => rfl
  | cons b l ih =>
    simp only [List.map_cons, List.orderedInsert]
    split
    · split
      · rfl
      · rename_i h1 h2
        exact absurd ((hr t b).mp h1) h2
    · split
      · rename_i h1 h2
        exact absurd ((hr t b).mpr h2) h1
      · rw [List.map_cons, ih]

theorem insertionSort_map_of_rel {α : Type} {r : α → α → Prop} [DecidableRel r]
    (g : α → α) (hr : ∀ a b, r (g a) (g b) ↔ r a b) (l : List α) :
    List.insertionSort r (l.map g) = (List.insertionSort r l).map g := by
  induction l with
  | nil => rfl
  | cons b l ih =>
    simp only [List.map_cons, List.insertionSort, ih]
    exact orderedInsert_map_of_rel g hr b _

theorem eventsOfTrade_setStatus (f : Trade → String) (start : Day) (t : Trade) :
    eventsOfTrade start (setStatus f t) = (eventsOfTrade start t).map (evSetStatus f) := by
  unfold eventsOfTrade
  have h1 : (setStatus f t).open_time = t.open_time := rfl
  have h2 : (setStatus f t).sell_price = t.sell_price := rfl
  have h3 : closeDT (setStatus f t) = closeDT t := rfl
  rw [List.map_append]
  simp only [h1, h2, h3]
  congr 1
  · by_cases h : start ≤ t.open_time.day
    · rw [if_pos h, if_pos h]
      rfl
    · rw [if_neg h, if_neg h]
      rfl
  · cases hsp : t.sell_price with
    | none => rfl
    | some sp =>
      dsimp only
      by_cases h : start ≤ (closeDT t).day
      · rw [if_pos h, if_pos h]
        rfl
      · rw [if_neg h, if_neg h]
        rfl

theorem flatMap_setStatus (f : Trade → String) (start : Day) (l : List Trade) :
    (l.map (setStatus f)).flatMap (eventsOfTrade start)
      = (l.flatMap (eventsOfTrade start)).map (evSetStatus f) := by
  induction l with
  | nil => rfl
  | cons t l ih =>
    rw [List.map_cons, List.flatMap_cons, List.flatMap_cons, List.map_append, ih,
      eventsOfTrade_setStatus]

theorem buildEvents_setStatus (f : Trade → String) (start : Day) (trades : List Trade) :
    buildEvents start (trades.map (setStatus f))
      = (buildEvents start trades).map (evSetStatus f) := by
  unfold buildEvents
  rw [filter_map_setStatus f (tradeInScope start) (fun t => rfl) trades,
    insertionSort_map_of_rel (setStatus f)
      (fun a b =>
        (Iff.rfl : tradeLe (setStatus f a) (setStatus f b) ↔ tradeLe a b)),
    flatMap_setStatus,
    insertionSort_map_of_rel (evSetStatus f)
      (fun a b =>
        (Iff.rfl : eventLe (evSetStatus f a) (evSetStatus f b) ↔ eventLe a b))]

theorem posInsert_setStatus (f : Trade → String) (ps : List (ℤ × Trade)) (i : ℤ)
    (t : Trade) :
    posInsert (posMap f ps) i (setStatus f t) = posMap f (posInsert ps i t) := by
  unfold posInsert posMap
  have hany : (ps.map (fun p => (p.1, setStatus f p.2))).any (fun p => p.1 = i)
      = ps.any (fun p => p.1 = i) := by
    rw [List.any_map]
    rfl
  rw [hany]
  by_cases h : ps.any (fun p => p.1 = i) = true
  · simp only [if_pos h]
    rw [List.map_map, List.map_map]
    apply List.map_congr_left
    intro p hp
    by_cases hpi : p.1 = i
    · simp [Function.comp, hpi]
    · simp [Function.comp, hpi]
  · simp only [if_neg h]
    rw [List.map_append]
    rfl

theorem posErase_setStatus (f : Trade → String) (ps : List (ℤ × Trade)) (i : ℤ) :
    posErase (posMap f ps) i = posMap f (posErase ps i) := by
  unfold posErase posMap
  rw [List.filter_map]
  rfl

theorem posValue_setStatus (f : Trade → String) (ps : List (ℤ × Trade)) :
    posValue (posMap f ps) = posValue ps := by
  unfold posValue posMap
  rw [List.map_map]
  rfl

theorem replayStep_setStatus (f : Trade → String) (st : RState) (e : Event) :
    replayStep ⟨st.af, posMap f st.positions, st.records⟩ (evSetStatus f e)
      = ⟨(replayStep st e).af, posMap f (replayStep st e).positions,
          (replayStep st e).records⟩ := by
  obtain ⟨d, tm, k, tr⟩ := e
  show replayStep ⟨st.af, posMap f st.positions, st.records⟩ ⟨d, tm, k, setStatus f tr⟩
    = _
  unfold replayStep
  have hid : (setStatus f tr).id = tr.id := rfl
  have hsp : (setStatus f tr).sell_price = tr.sell_price := rfl
  cases k <;> dsimp only
  · simp only [hid]
    rw [posInsert_setStatus, posValue_setStatus]
    rfl
  · simp only [hid, hsp]
    cases hs : tr.sell_price <;> dsimp only
    · rw [posValue_setStatus]
    · rw [posErase_setStatus, posValue_setStatus]
      rfl

theorem foldl_replayStep_setStatus (f : Trade → String) (events : List Event) :
    ∀ (a : Money) (ps : List (ℤ × Trade)) (rs : List (Day × RecVal)),
    (events.map (evSetStatus f)).foldl replayStep ⟨a, posMap f ps, rs⟩
      = ⟨(events.foldl replayStep ⟨a, ps, rs⟩).af,
         posMap f (events.foldl replayStep ⟨a, ps, rs⟩).positions,
         (events.foldl replayStep ⟨a, ps, rs⟩).records⟩ := by
  induction events with
  | nil => intro a ps rs; rfl
  | cons e l ih =>
    intro a ps rs
    rw [List.map_cons, List.foldl_cons, List.foldl_cons,
      show replayStep ⟨a, posMap f ps, rs⟩ (evSetStatus f e)
          = ⟨(replayStep ⟨a, ps, rs⟩ e).af,
             posMap f (replayStep ⟨a, ps, rs⟩ e).positions,
             (replayStep ⟨a, ps, rs⟩ e).records⟩ from
        replayStep_setStatus f ⟨a, ps, rs⟩ e]
    exact ih _ _ _

theorem replayFrom_setStatus (f : Trade → String) (initial_capital : Money)
    (anchor_date start : Day) (af0 : Money) (trades : List Trade)
    (snaps1 : List Snapshot) (initial_record : Snapshot) :
    replayFrom initial_capital anchor_date start af0 [] (trades.map (setStatus f))
        snaps1 initial_record
      = replayFrom initial_capital anchor_date start af0 [] trades snaps1
          initial_record := by
  unfold replayFrom
  rw [buildEvents_setStatus]
  cases hbe : buildEvents start trades with
  | nil => rfl
  | cons e l =>
    dsimp only
    have hc1 : (List.map (evSetStatus f) (e :: l)).isEmpty = false := rfl
    have hc2 : (e :: l).isEmpty = false := rfl
    rw [hc1, hc2, if_neg Bool.false_ne_true, if_neg Bool.false_ne_true]
    rw [show (⟨af0, ([] : List (ℤ × Trade)),
          if start = anchor_date
          then [(start, ⟨initial_capital, 0, initial_capital⟩)] else []⟩ : RState)
        = ⟨af0, posMap f [],
          if start = anchor_date
          then [(start, ⟨initial_capital, 0, initial_capital⟩)] else []⟩ from rfl]
    rw [foldl_replayStep_setStatus f (e :: l) af0 []]
    rfl

theorem recalcFullRebuild_setStatus (f : Trade → String) (strategy : Strategy)
    (user : UserRec) (trades : List Trade) (snaps : List Snapshot) (today : Day) :
    recalcFullRebuild strategy user (trades.map (setStatus f)) snaps today
      = recalcFullRebuild strategy user trades snaps today := by
  unfold recalcFullRebuild
  rw [resolveAnchor_setStatus]
  dsimp only
  rw [replayFrom_setStatus]

theorem recalc_setStatus (f : Trade → String) (strategy : Strategy) (user : UserRec)
    (trades : List Trade) (snaps : List Snapshot) (today s : Day) :
    recalculate_strategy_capital_history strategy user (trades.map (setStatus f))
        snaps today s
      = recalculate_strategy_capital_history strategy user trades snaps today s := by
  rw [recalc_eq_fullRebuild, recalc_eq_fullRebuild, recalcFullRebuild_setStatus]

/-- **C10.**  The stock replay engine decides open-versus-closed from
`sell_price` alone and never consults `status`: (i) rewriting every trade's
`status` field arbitrarily leaves the engine's entire output (strategy row and
snapshot table) unchanged; (ii) a trade generates a close event exactly when
its `sell_price` is non-null, dated by `closeDT` (close_time, falling back to
updated_at, then open_time, clamped to not precede the open event); (iii)
consequently a trade with null `sell_price` — whatever its `status`, e.g.
"closed" — stays in the open-position dict through the whole event fold, so
its cost keeps counting into `position_value` and its funds are never returned.
(Distinct row ids are assumed, as the primary key guarantees.) -/
theorem status_never_consulted (f : Trade → String) (strategy : Strategy)
    (user : UserRec) (trades : List Trade) (snaps : List Snapshot)
    (today s start : Day) (t : Trade) (st : RState)
    (hids : (trades.map (fun a => a.id)).Nodup) (htm : t ∈ trades)
    (hsp : t.sell_price = none) (hdel : t.is_deleted = false)
    (hopen : start ≤ t.open_time.day) :
    (recalculate_strategy_capital_history strategy user (trades.map (setStatus f))
        snaps today s
      = recalculate_strategy_capital_history strategy user trades snaps today s) ∧
    ((eventsOfTrade start t).filter (fun e => e.kind = EvKind.cls)
      = if t.sell_price.isSome && decide (start ≤ (closeDT t).day)
        then [⟨(closeDT t).day, closeDT t, EvKind.cls, t⟩] else []) ∧
    ((t.id, t) ∈ ((buildEvents start trades).foldl replayStep st).positions) :=
  ⟨recalc_setStatus f strategy user trades snaps today s,
   eventsOfTrade_cls start t,
   null_sell_stays_open start trades t st hids htm hsp hdel hopen⟩

/-- **C10, witness**: one never-sold trade (rewritten to status "closed"); the
engine output is unchanged by the rewrite and the trade is still held open at
the end of the fold. -/
theorem status_never_consulted_witness :
    (([exTrade].map (fun a => a.id)).Nodup ∧ exTrade ∈ [exTrade]
      ∧ exTrade.sell_price = none ∧ exTrade.is_deleted = false
      ∧ (0 : Day) ≤ exTrade.open_time.day) ∧
    (recalculate_strategy_capital_history exStrategy exUser
        ([exTrade].map (setStatus (fun _ => "closed"))) exSnaps 9 2
      = recalculate_strategy_capital_history exStrategy exUser [exTrade] exSnaps 9 2) ∧
    ((exTrade.id, exTrade)
      ∈ ((buildEvents 0 [exTrade]).foldl replayStep ⟨100000, [], []⟩).positions) :=
  have h := status_never_consulted (fun _ => "closed") exStrategy exUser [exTrade]
    exSnaps 9 2 0 exTrade ⟨100000, [], []⟩ (by decide) (List.mem_cons_self _ _)
    rfl rfl (by decide)
  ⟨⟨by decide, List.mem_cons_self _ _, rfl, rfl, by decide⟩, h.1, h.2.2⟩

end TradeView
